import Mathlib

/-!
Shallow embedding of the `anonymask-core` anonymization engine
(`src/anonymask-core/src/{anonymizer,detection,entity,config,error}.rs`).

Strings are modelled as lists of symbols (`Str := List Char`); offsets are
symbol offsets, which coincide with the source's byte offsets on ASCII data.
The external `regex` crate is modelled as an oracle parameter producing match
spans; the external `uuid` crate is modelled as an oracle stream of hex
strings.  A `none` result models a Rust panic (index out of bounds in the
custom-entity scan loop).
-/

set_option maxHeartbeats 1000000

abbrev Str := List Char

/-- Rust `str::starts_with` for a literal pattern. -/
def isPfx : Str → Str → Bool
  | [], _ => true
  | _ :: _, [] => false
  | a :: as, b :: bs => a == b && isPfx as bs

/-- Rust `str::find` for a literal pattern: index of the leftmost occurrence. -/
def strFind (s v : Str) : Option Nat :=
  if isPfx v s then some 0
  else
    match s with
    | [] => none
    | _ :: rest => (strFind rest v).map (· + 1)

/-- Rust `str::contains` for a literal pattern. -/
def hasSub : Str → Str → Bool
  | [], v => isPfx v []
  | c :: rest, v => isPfx v (c :: rest) || hasSub rest v

/-- Worker for `rep`: leftmost non-overlapping replacement.  While `skip > 0`
the symbol belongs to an already-replaced occurrence and is discarded. -/
def repAux (pat repl : Str) : Nat → Str → Str
  | _, [] => []
  | skip+1, _ :: rest => repAux pat repl skip rest
  | 0, c :: rest =>
    if isPfx pat (c :: rest) then repl ++ repAux pat repl (pat.length - 1) rest
    else c :: repAux pat repl 0 rest

/-- Rust `str::replace s pat repl`: replaces every leftmost non-overlapping
occurrence of `pat` in `s` by `repl`.  An empty pattern matches at every
symbol boundary, as in Rust. -/
def rep (s pat repl : Str) : Str :=
  match pat with
  | [] => repl ++ (s.map (fun c => c :: repl)).flatten
  | _ :: _ => repAux pat repl 0 s

/-- Worker for `countOcc`. -/
def cntAux (pat : Str) : Nat → Str → Nat
  | _, [] => 0
  | skip+1, _ :: rest => cntAux pat skip rest
  | 0, c :: rest =>
    if isPfx pat (c :: rest) then 1 + cntAux pat (pat.length - 1) rest
    else cntAux pat 0 rest

/-- The number of leftmost non-overlapping occurrences of `pat` in `s` —
exactly the occurrences that `rep` rewrites. -/
def countOcc (s pat : Str) : Nat :=
  match pat with
  | [] => s.length + 1
  | _ :: _ => cntAux pat 0 s

/-! ### Data model (`entity.rs`, `config.rs`, `error.rs`) -/

/-- `entity.rs`: `EntityType`. -/
inductive EntityType where
  | Email
  | Phone
  | Ssn
  | CreditCard
  | IpAddress
  | Url
  | Custom (name : Str)
deriving DecidableEq

/-- `entity.rs`: `Entity`.  `endPos` embeds the source field `end` (a Lean
keyword); offsets are symbol offsets into the scanned text. -/
structure Entity where
  entity_type : EntityType
  value : Str
  start : Nat
  endPos : Nat
deriving DecidableEq

/-- `config.rs`: `PlaceholderFormat`. -/
inductive PlaceholderFormat where
  | Standard
  | Short
  | Custom (template : Str)
deriving DecidableEq

/-- `config.rs`: `AnonymizerConfig`. -/
structure AnonymizerConfig where
  case_sensitive : Bool
  word_boundary_check : Bool
  placeholder_format : PlaceholderFormat
  max_entities : Nat
deriving DecidableEq

/-- `config.rs`: `impl Default for AnonymizerConfig`. -/
def AnonymizerConfig.default : AnonymizerConfig :=
  { case_sensitive := true
    word_boundary_check := false
    placeholder_format := PlaceholderFormat.Standard
    max_entities := 0 }

/-- `error.rs`: `AnonymaskError` (external payloads abbreviated to strings). -/
inductive AnonymaskError where
  | InvalidEntityType (entity_type reason : Str)
  | MappingNotFound (placeholder : Str) (position : Nat)
  | RegexError (pattern : Str)
  | StorageError (msg : Str)
  | AnonymizationError (msg : Str)
deriving DecidableEq

/-- `entity.rs`: `AnonymizationResult`.  The mapping `HashMap` is modelled as
an association list; its order is the canonical stand-in for the arbitrary
`HashMap` iteration order. -/
structure AnonymizationResult where
  anonymized_text : Str
  mapping : List (Str × Str)
  entities : List Entity
deriving DecidableEq

/-! ### Detection (`detection.rs`) -/

/-- Oracle modelling the external `regex` crate: the spans produced by
`find_iter` of the compiled pattern of a built-in type on a text. -/
abbrev RegexOracle := EntityType → Str → List (Nat × Nat)

/-- The contract of the `regex` crate for the six fixed built-in patterns:
every reported span is in bounds and nonempty (none of the built-in patterns
can match the empty string). -/
def ValidRegex (R : RegexOracle) : Prop :=
  ∀ et text sp, sp ∈ R et text → sp.1 < sp.2 ∧ sp.2 ≤ text.length

/-- `detection.rs` lines 128-137: regex detection over the compiled patterns;
the entity value is the matched slice `mat.as_str()`. -/
def regexEntities (R : RegexOracle) (patterns : List EntityType) (text : Str) :
    List Entity :=
  (patterns.map (fun et =>
    (R et text).map (fun sp =>
      { entity_type := et
        value := (text.drop sp.1).take (sp.2 - sp.1)
        start := sp.1
        endPos := sp.2 : Entity }))).flatten

/-- `detection.rs` lines 143-156: the scan loop for one custom value.
`start` is the slice base of `text[start..]`; Rust slicing panics (`none`)
when `start > text.length`.  The loop advances by `found position + 1`; the
fuel argument only bounds the recursion and `text.length + 2` iterations are
always enough to reach the panic or the end of the scan. -/
def customScanGo (text value : Str) : Nat → Nat → Option (List (Nat × Nat))
  | fuel, start =>
    if text.length < start then none
    else
      match strFind (text.drop start) value with
      | none => some []
      | some pos =>
        match fuel with
        | 0 => none
        | fuel' + 1 =>
          (customScanGo text value fuel' (start + pos + 1)).map
            (fun rest => (start + pos, start + pos + value.length) :: rest)

/-- All occurrences of one custom value, per the `start = found + 1` loop. -/
def customScan (text value : Str) : Option (List (Nat × Nat)) :=
  customScanGo text value (text.length + 2) 0

/-- `detection.rs` lines 142-157: one custom type's value list. -/
def customValuesScan (text : Str) (et : EntityType) :
    List Str → Option (List Entity)
  | [] => some []
  | v :: vs =>
    match customScan text v, customValuesScan text et vs with
    | some spans, some rest =>
      some (spans.map (fun sp =>
        { entity_type := et, value := v, start := sp.1, endPos := sp.2 : Entity }) ++ rest)
    | _, _ => none

/-- `detection.rs` lines 140-159: all custom entities (map iterated in the
canonical association-list order). -/
def customEntitiesScan (text : Str) :
    List (EntityType × List Str) → Option (List Entity)
  | [] => some []
  | (et, values) :: rest =>
    match customValuesScan text et values, customEntitiesScan text rest with
    | some l1, some l2 => some (l1 ++ l2)
    | _, _ => none

/-- Stable insertion implementing `entities.sort_by_key(|e| e.start)`
(Rust `sort_by_key` is stable: equal keys keep their input order). -/
def insertByStart (e : Entity) : List Entity → List Entity
  | [] => [e]
  | x :: xs => if x.start < e.start then x :: insertByStart e xs else e :: x :: xs

/-- Stable sort of the candidates by `start` ascending. -/
def sortByStart : List Entity → List Entity
  | [] => []
  | e :: rest => insertByStart e (sortByStart rest)

/-- `detection.rs` lines 165-170, one loop step: push the entity iff the
accumulator is empty or its last element ends at or before the start. -/
def resolveStep (filtered : List Entity) (e : Entity) : List Entity :=
  match filtered.getLast? with
  | none => filtered ++ [e]
  | some last => if last.endPos ≤ e.start then filtered ++ [e] else filtered

/-- `detection.rs` lines 165-170: the overlap-removal scan. -/
def resolveOverlaps (l : List Entity) : List Entity := l.foldl resolveStep []

/-- Structural version of `resolveOverlaps` carrying the last kept entity,
used for the proofs and related to the `foldl` form by `resolveOverlaps_eq`. -/
def scanKeep : Option Entity → List Entity → List Entity
  | _, [] => []
  | none, x :: xs => x :: scanKeep (some x) xs
  | some g, x :: xs =>
    if g.endPos ≤ x.start then x :: scanKeep (some x) xs else scanKeep (some g) xs

/-- `detection.rs` `EntityDetector::detect`. -/
def detect (R : RegexOracle) (patterns : List EntityType) (text : Str)
    (custom : Option (List (EntityType × List Str))) : Option (List Entity) :=
  match custom with
  | none => some (resolveOverlaps (sortByStart (regexEntities R patterns text)))
  | some cm =>
    match customEntitiesScan text cm with
    | none => none
    | some ce =>
      some (resolveOverlaps (sortByStart (regexEntities R patterns text ++ ce)))

/-- `detection.rs` `EntityDetector::get_pattern`: a `Custom` type has no
compiled pattern and is a construction error; the six built-in patterns are
fixed and compile. -/
def get_pattern_ok (et : EntityType) : Except AnonymaskError Unit :=
  match et with
  | EntityType.Custom name =>
    Except.error (AnonymaskError.InvalidEntityType name
      ("Custom entity types do not use regex patterns".data))
  | _ => Except.ok ()

/-- `detection.rs` `EntityDetector::new`: validate every requested type; the
stored pattern key set is deduplicated (a `HashMap` keyed by type). -/
def EntityDetector.new : List EntityType → Except AnonymaskError (List EntityType)
  | [] => Except.ok []
  | et :: rest =>
    match get_pattern_ok et, EntityDetector.new rest with
    | Except.error e, _ => Except.error e
    | _, Except.error e => Except.error e
    | Except.ok _, Except.ok ps => Except.ok (if et ∈ ps then ps else et :: ps)

/-! ### Placeholder allocation and substitution (`anonymizer.rs`) -/

/-- Oracle modelling the external `uuid` crate: the n-th random hex string
drawn by this engine instance. -/
abbrev UuidOracle := Nat → Str

/-- Engine-instance state: the `AtomicUsize` counter and the number of UUID
draws made so far (the index into the oracle stream). -/
structure GenState where
  counter : Nat
  draws : Nat
deriving DecidableEq

/-- `str::to_uppercase`, symbol-wise (ASCII). -/
def upperStr (s : Str) : Str := s.map Char.toUpper

/-- `anonymizer.rs` lines 359-367: the placeholder type prefix
(the source binding `type_prefix`). -/
def type_pfx : EntityType → Str
  | EntityType.Email => ("EMAIL".data)
  | EntityType.Phone => ("PHONE".data)
  | EntityType.Ssn => ("SSN".data)
  | EntityType.CreditCard => ("CREDIT_CARD".data)
  | EntityType.IpAddress => ("IP_ADDRESS".data)
  | EntityType.Url => ("URL".data)
  | EntityType.Custom name => name

/-- `anonymizer.rs` `Anonymizer::generate_placeholder`.  `Short` and `Custom`
perform `counter.fetch_add(1) + 1`; `Standard` and `Custom` draw a fresh
UUID.  The template tokens of `Custom` are substituted with `str::replace`
regardless of which tokens the template uses. -/
def generate_placeholder (cfg : AnonymizerConfig) (O : UuidOracle)
    (entity_type : EntityType) (st : GenState) : Str × GenState :=
  let pfx := upperStr (type_pfx entity_type)
  match cfg.placeholder_format with
  | PlaceholderFormat.Standard =>
    (pfx ++ '_' :: O st.draws, { st with draws := st.draws + 1 })
  | PlaceholderFormat.Short =>
    let count := st.counter + 1
    (pfx ++ '_' :: Nat.toDigits 10 count, { st with counter := count })
  | PlaceholderFormat.Custom template =>
    let count := st.counter + 1
    let uuid := O st.draws
    let s1 := rep template ("\x7btype\x7d".data) pfx
    let s2 := rep s1 ("\x7buuid\x7d".data) uuid
    let s3 := rep s2 ("\x7bcounter\x7d".data) (Nat.toDigits 10 count)
    (s3, { counter := count, draws := st.draws + 1 })

/-- `HashMap::contains_key`/`get` on `unique_values` (keyed by value). -/
def lookupVal : List (Str × Str) → Str → Option Str
  | [], _ => none
  | (v, p) :: rest, v' => if v = v' then some p else lookupVal rest v'

/-- `anonymizer.rs` lines 252-258: collect the unique values in entity order
and allocate one placeholder per new value. -/
def buildUnique (cfg : AnonymizerConfig) (O : UuidOracle) :
    List Entity → List (Str × Str) → GenState → List (Str × Str) × GenState
  | [], acc, st => (acc, st)
  | e :: rest, acc, st =>
    match lookupVal acc e.value with
    | some _ => buildUnique cfg O rest acc st
    | none =>
      let pr := generate_placeholder cfg O e.entity_type st
      buildUnique cfg O rest (acc ++ [(e.value, pr.1)]) pr.2

/-- `HashMap::get` on the placeholder → original mapping. -/
def lookupAssoc : List (Str × Str) → Str → Option Str
  | [], _ => none
  | (k, v) :: rest, k' => if k = k' then some v else lookupAssoc rest k'

/-- `HashMap::insert` (overwrites an existing key in place). -/
def insertAssoc : List (Str × Str) → Str → Str → List (Str × Str)
  | [], k, v => [(k, v)]
  | (k', v') :: rest, k, v =>
    if k' = k then (k, v) :: rest else (k', v') :: insertAssoc rest k v

/-- `anonymizer.rs` lines 261-263: build the placeholder → original mapping. -/
def buildMapping (pairs : List (Str × Str)) : List (Str × Str) :=
  pairs.foldl (fun m pr => insertAssoc m pr.2 pr.1) []

/-- `anonymizer.rs` lines 266-268: replace every occurrence of each unique
value by its placeholder, value after value. -/
def applyReplacements (text : Str) (pairs : List (Str × Str)) : Str :=
  pairs.foldl (fun t pr => rep t pr.1 pr.2) text

/-- `anonymizer.rs` `Anonymizer::anonymize_with_custom`.  The returned pair
carries the updated engine state; `none` models a panic inside detection
(the engine returns nothing and performs no observable effect). -/
def anonymize_with_custom (R : RegexOracle) (patterns : List EntityType)
    (cfg : AnonymizerConfig) (O : UuidOracle) (text : Str)
    (custom : Option (List (EntityType × List Str))) (st : GenState) :
    Option (Except AnonymaskError AnonymizationResult × GenState) :=
  if text = [] then
    some (Except.ok { anonymized_text := [], mapping := [], entities := [] }, st)
  else
    match detect R patterns text custom with
    | none => none
    | some entities =>
      let pr := buildUnique cfg O entities [] st
      some (Except.ok
        { anonymized_text := applyReplacements text pr.1
          mapping := buildMapping pr.1
          entities := entities }, pr.2)

/-- `anonymizer.rs` `Anonymizer::anonymize`. -/
def anonymize (R : RegexOracle) (patterns : List EntityType)
    (cfg : AnonymizerConfig) (O : UuidOracle) (text : Str) (st : GenState) :
    Option (Except AnonymaskError AnonymizationResult × GenState) :=
  anonymize_with_custom R patterns cfg O text none st

/-- Stable insertion implementing
`placeholders.sort_by_key(|p| Reverse(p.len()))`. -/
def insertByLenDesc (k : Str) : List Str → List Str
  | [] => [k]
  | x :: xs => if k.length < x.length then x :: insertByLenDesc k xs else k :: x :: xs

/-- Stable sort of the placeholders by length descending. -/
def sortByLenDesc : List Str → List Str
  | [] => []
  | k :: rest => insertByLenDesc k (sortByLenDesc rest)

/-- The processing order of `deanonymize`: the mapping keys sorted by length
descending (ties keep the mapping order). -/
def deanonOrder (mapping : List (Str × Str)) : List Str :=
  sortByLenDesc (mapping.map Prod.fst)

/-- `anonymizer.rs` `Anonymizer::deanonymize`: replace every occurrence of
each mapped placeholder, longest placeholder first; the `if let Some` lookup
is modelled faithfully. -/
def deanonymize (text : Str) (mapping : List (Str × Str)) : Str :=
  (deanonOrder mapping).foldl
    (fun t p =>
      match lookupAssoc mapping p with
      | some original => rep t p original
      | none => t) text

/-- `anonymizer.rs` `Anonymizer::with_config`: construction validates the
types and starts the counter at 0. -/
def with_config (entity_types : List EntityType) (cfg : AnonymizerConfig) :
    Except AnonymaskError (List EntityType × AnonymizerConfig × GenState) :=
  match EntityDetector.new entity_types with
  | Except.error e => Except.error e
  | Except.ok patterns => Except.ok (patterns, cfg, { counter := 0, draws := 0 })

/-! ### Auxiliary notions used only in the statements -/

/-- Projection used to compare outcomes across calls. -/
def entities_of : Except AnonymaskError AnonymizationResult → List Entity
  | Except.ok r => r.entities
  | Except.error _ => []

/-- Projection used to compare outcomes across calls. -/
def mapping_of : Except AnonymaskError AnonymizationResult → List (Str × Str)
  | Except.ok r => r.mapping
  | Except.error _ => []

/-- Freshness of the allocated placeholders for a run: every unique value is
nonempty and every placeholder is nonempty, shares no symbol with the input
text, and shares no symbol with any other placeholder. -/
def FreshPairs (text : Str) (pairs : List (Str × Str)) : Prop :=
  (∀ pr ∈ pairs, pr.1 ≠ [] ∧ pr.2 ≠ [] ∧ ∀ c ∈ pr.2, c ∉ text) ∧
  List.Pairwise (fun a b => ∀ c ∈ a.2, c ∉ b.2) pairs

/-- Pairwise symbol-disjointness of the distinct detected values. -/
def ValuesDisjoint (pairs : List (Str × Str)) : Prop :=
  List.Pairwise (fun a b => (∀ c ∈ a.1, c ∉ b.1) ∧ ∀ c ∈ b.1, c ∉ a.1) pairs

/-- Concrete regex oracle producing no matches (an engine constructed with
no built-in entity types never queries the oracle). -/
def R0 : RegexOracle := fun _ _ => []

/-- Concrete UUID oracle (unused under the `Short` format). -/
def O0 : UuidOracle := fun _ => []

/-- `AnonymizerConfig` with the `Short` placeholder format. -/
def cfgShort : AnonymizerConfig :=
  { AnonymizerConfig.default with placeholder_format := PlaceholderFormat.Short }

deriving instance DecidableEq for Except

instance (text : Str) (pairs : List (Str × Str)) : Decidable (FreshPairs text pairs) := by
  unfold FreshPairs
  infer_instance

instance (pairs : List (Str × Str)) : Decidable (ValuesDisjoint pairs) := by
  unfold ValuesDisjoint
  infer_instance

theorem isPfx_iff (p s : Str) : isPfx p s = true ↔ ∃ t, s = p ++ t := by
  induction p generalizing s with
  | nil => simp [isPfx]
  | cons a as ih =>
    cases s with
    | nil => simp [isPfx]
    | cons b bs =>
      simp only [isPfx, Bool.and_eq_true, beq_iff_eq, ih, List.cons_append,
        List.cons.injEq]
      constructor
      · rintro ⟨rfl, t, rfl⟩; exact ⟨t, rfl, rfl⟩
      · rintro ⟨t, rfl, rfl⟩; exact ⟨rfl, t, rfl⟩

theorem isPfx_append (p t : Str) : isPfx p (p ++ t) = true :=
  (isPfx_iff p (p ++ t)).mpr ⟨t, rfl⟩

theorem isPfx_length {p s : Str} (h : isPfx p s = true) : p.length ≤ s.length := by
  obtain ⟨t, rfl⟩ := (isPfx_iff p s).mp h
  simp

theorem isPfx_nil_iff (p : Str) : isPfx p [] = true ↔ p = [] := by
  cases p <;> simp [isPfx]

theorem isPfx_head {a : Char} {as : Str} {s : Str} (h : isPfx (a :: as) s = true) :
    ∃ rest, s = a :: rest ∧ isPfx as rest = true := by
  obtain ⟨t, rfl⟩ := (isPfx_iff _ s).mp h
  exact ⟨as ++ t, rfl, isPfx_append as t⟩

theorem repAux_skip (pat repl : Str) (n : Nat) (s : Str) :
    repAux pat repl n s = repAux pat repl 0 (s.drop n) := by
  induction s generalizing n with
  | nil => cases n <;> rfl
  | cons c rest ih =>
    cases n with
    | zero => rfl
    | succ m => simpa [repAux] using ih m

theorem cntAux_skip (pat : Str) (n : Nat) (s : Str) :
    cntAux pat n s = cntAux pat 0 (s.drop n) := by
  induction s generalizing n with
  | nil => cases n <;> rfl
  | cons c rest ih =>
    cases n with
    | zero => rfl
    | succ m => simpa [cntAux] using ih m

theorem rep_nil {pat : Str} (repl : Str) (h : pat ≠ []) : rep [] pat repl = [] := by
  cases pat with
  | nil => exact absurd rfl h
  | cons a as => rfl

theorem rep_pos {s pat : Str} (repl : Str) (h : pat ≠ [])
    (hp : isPfx pat s = true) :
    rep s pat repl = repl ++ rep (s.drop pat.length) pat repl := by
  cases pat with
  | nil => exact absurd rfl h
  | cons a as =>
    obtain ⟨rest, rfl, _⟩ := isPfx_head hp
    show repAux (a :: as) repl 0 (a :: rest) = _
    rw [repAux]
    simp only [hp, if_true]
    rw [repAux_skip]
    show _ = repl ++ repAux (a :: as) repl 0 (List.drop as.length rest)
    rfl

theorem rep_neg {c : Char} {rest pat : Str} (repl : Str)
    (hp : isPfx pat (c :: rest) = false) :
    rep (c :: rest) pat repl = c :: rep rest pat repl := by
  cases pat with
  | nil => simp [isPfx] at hp
  | cons a as =>
    show repAux (a :: as) repl 0 (c :: rest) = _
    rw [repAux]
    simp only [hp, if_false]
    rfl

theorem cnt_nil {pat : Str} (h : pat ≠ []) : countOcc [] pat = 0 := by
  cases pat with
  | nil => exact absurd rfl h
  | cons a as => rfl

theorem cnt_pos {s pat : Str} (h : pat ≠ []) (hp : isPfx pat s = true) :
    countOcc s pat = 1 + countOcc (s.drop pat.length) pat := by
  cases pat with
  | nil => exact absurd rfl h
  | cons a as =>
    obtain ⟨rest, rfl, _⟩ := isPfx_head hp
    show cntAux (a :: as) 0 (a :: rest) = _
    rw [cntAux]
    simp only [hp, if_true]
    rw [cntAux_skip]
    rfl

theorem cnt_neg {c : Char} {rest pat : Str} (hp : isPfx pat (c :: rest) = false) :
    countOcc (c :: rest) pat = countOcc rest pat := by
  cases pat with
  | nil => simp [isPfx] at hp
  | cons a as =>
    show cntAux (a :: as) 0 (c :: rest) = _
    rw [cntAux]
    simp only [hp, if_false]
    rfl

theorem hasSub_iff (s v : Str) : hasSub s v = true ↔ ∃ a b, s = a ++ v ++ b := by
  induction s with
  | nil =>
    simp only [hasSub, isPfx_nil_iff]
    constructor
    · rintro rfl; exact ⟨[], [], rfl⟩
    · rintro ⟨a, b, h⟩
      have h' := h.symm
      simp only [List.append_eq_nil] at h'
      exact h'.1.2
  | cons c rest ih =>
    simp only [hasSub, Bool.or_eq_true, ih, isPfx_iff]
    constructor
    · rintro (⟨t, ht⟩ | ⟨a, b, hab⟩)
      · exact ⟨[], t, by simpa using ht⟩
      · exact ⟨c :: a, b, by simp [hab]⟩
    · rintro ⟨a, b, hab⟩
      cases a with
      | nil => exact Or.inl ⟨b, by simpa using hab⟩
      | cons a0 as =>
        simp only [List.cons_append, List.cons.injEq] at hab
        exact Or.inr ⟨as, b, hab.2⟩

theorem hasSub_of_tail {c : Char} {rest v : Str} (h : hasSub rest v = true) :
    hasSub (c :: rest) v = true := by
  simp [hasSub, h]

theorem hasSub_append_left {s v : Str} (u : Str) (h : hasSub s v = true) :
    hasSub (u ++ s) v = true := by
  obtain ⟨a, b, rfl⟩ := (hasSub_iff s v).mp h
  exact (hasSub_iff _ v).mpr ⟨u ++ a, b, by simp⟩

theorem hasSub_refl (v : Str) : hasSub v v = true :=
  (hasSub_iff v v).mpr ⟨[], [], by simp⟩

/-- Strong induction on the length of a string, used to follow the
recursion pattern of `rep`. -/
theorem str_length_ind {motive : Str → Prop}
    (ind : ∀ s, (∀ t : Str, t.length < s.length → motive t) → motive s) :
    ∀ s, motive s := by
  have H : ∀ n (s : Str), s.length = n → motive s := by
    intro n
    induction n using Nat.strong_induction_on with
    | _ n IH =>
      intro s hs
      exact ind s (fun t ht => IH t.length (by omega) t rfl)
  exact fun s => H s.length s rfl

theorem drop_length_lt {s pat : Str} (h : pat ≠ []) (hp : isPfx pat s = true) :
    (s.drop pat.length).length < s.length := by
  have h1 : 1 ≤ pat.length := by
    cases pat with
    | nil => exact absurd rfl h
    | cons a as => simp
  have h2 := isPfx_length hp
  simp only [List.length_drop]
  omega

theorem not_mem_swap {u w : Str} (h : ∀ c ∈ u, c ∉ w) : ∀ c ∈ w, c ∉ u :=
  fun c hcw hcu => (h c hcu) hcw

theorem isPfx_false_of_head {pat : Str} {c : Char} (w : Str) (h : pat ≠ [])
    (hc : c ∉ pat) : isPfx pat (c :: w) = false := by
  cases pat with
  | nil => exact absurd rfl h
  | cons p0 pt =>
    show (p0 == c && isPfx pt w) = false
    have hne : (p0 == c) = false := by
      rw [beq_eq_false_iff_ne]
      intro hq
      exact hc (hq ▸ List.mem_cons_self p0 pt)
    simp [hne]

theorem exists_of_isPfx {pat s : Str} (hp : isPfx pat s = true) :
    s = pat ++ s.drop pat.length := by
  obtain ⟨t, rfl⟩ := (isPfx_iff pat s).mp hp
  rw [List.drop_left]

/-- If no symbol of `u` occurs in the pattern, replacement walks straight
through `u`. -/
theorem rep_skip {pat : Str} (repl u s : Str) (ha : pat ≠ [])
    (hd : ∀ c ∈ u, c ∉ pat) :
    rep (u ++ s) pat repl = u ++ rep s pat repl := by
  induction u with
  | nil => rfl
  | cons c u' ih =>
    have hf : isPfx pat (c :: (u' ++ s)) = false :=
      isPfx_false_of_head _ ha (hd c (List.mem_cons_self c u'))
    rw [List.cons_append, rep_neg repl hf, ih (fun x hx => hd x (List.mem_cons_of_mem c hx)),
      List.cons_append]

/-- Symbols of the replaced string come from the input or the replacement. -/
theorem mem_rep {pat : Str} {repl s : Str} {c : Char} (ha : pat ≠ []) :
    c ∈ rep s pat repl → c ∈ s ∨ c ∈ repl := by
  induction s using str_length_ind with
  | ind s IH =>
    cases s with
    | nil => rw [rep_nil repl ha]; intro h; exact absurd h (List.not_mem_nil c)
    | cons c0 rest =>
      by_cases hp : isPfx pat (c0 :: rest) = true
      · rw [rep_pos repl ha hp]
        intro h
        rcases List.mem_append.mp h with h1 | h2
        · exact Or.inr h1
        · rcases IH _ (drop_length_lt ha hp) h2 with h3 | h4
          · exact Or.inl (List.mem_of_mem_drop h3)
          · exact Or.inr h4
      · rw [rep_neg repl (Bool.not_eq_true _ ▸ hp)]
        intro h
        rcases List.mem_cons.mp h with h1 | h2
        · exact Or.inl (h1 ▸ List.mem_cons_self c0 rest)
        · rcases IH rest (by simp) h2 with h3 | h4
          · exact Or.inl (List.mem_cons_of_mem c0 h3)
          · exact Or.inr h4

/-- Replacement cannot create a new prefix `w` when `w` shares no symbol with
the replacement string. -/
theorem pfx_keep {pat repl : Str} (ha : pat ≠ []) (hb : repl ≠ []) :
    ∀ s w, (∀ c ∈ w, c ∉ repl) → isPfx w s = false →
      isPfx w (rep s pat repl) = false := by
  intro s
  induction s using str_length_ind with
  | ind s IH =>
    intro w hd hf
    cases s with
    | nil => rw [rep_nil repl ha]; exact hf
    | cons c0 rest =>
      have hwne : w ≠ [] := by
        intro hw
        rw [hw] at hf
        simp [isPfx] at hf
      by_cases hp : isPfx pat (c0 :: rest) = true
      · rw [rep_pos repl ha hp]
        cases repl with
        | nil => exact absurd rfl hb
        | cons r0 rt =>
          exact isPfx_false_of_head _ hwne
            (fun hr => (hd r0 hr) (List.mem_cons_self r0 rt))
      · rw [rep_neg repl (Bool.not_eq_true _ ▸ hp)]
        cases w with
        | nil => exact absurd rfl hwne
        | cons w0 wt =>
          by_cases hw0 : w0 = c0
          · subst hw0
            have hft : isPfx wt rest = false := by
              have : isPfx (w0 :: wt) (w0 :: rest) = isPfx wt rest := by
                simp [isPfx]
              rw [this] at hf
              exact hf
            have := IH rest (by simp) wt
              (fun c hc => hd c (List.mem_cons_of_mem w0 hc)) hft
            show (w0 == w0 && isPfx wt (rep rest pat repl)) = false
            simp [this]
          · show (w0 == c0 && isPfx wt (rep rest pat repl)) = false
            have : (w0 == c0) = false := beq_eq_false_iff_ne.mpr hw0
            simp [this]

/-- A prefix `w` of the replaced string that shares no symbol with the
replacement string was already a prefix of the input. -/
theorem pfx_back {pat repl : Str} (ha : pat ≠ []) (hb : repl ≠ []) :
    ∀ s w, (∀ c ∈ w, c ∉ repl) → isPfx w (rep s pat repl) = true →
      isPfx w s = true := by
  intro s
  induction s using str_length_ind with
  | ind s IH =>
    intro w hd hp
    cases s with
    | nil =>
      rw [rep_nil repl ha] at hp
      rw [(isPfx_nil_iff w).mp hp]
      rfl
    | cons c0 rest =>
      by_cases hm : isPfx pat (c0 :: rest) = true
      · rw [rep_pos repl ha hm] at hp
        cases w with
        | nil => rfl
        | cons w0 wt =>
          cases repl with
          | nil => exact absurd rfl hb
          | cons r0 rt =>
            obtain ⟨rest2, hr, -⟩ := isPfx_head hp
            simp only [List.cons_append, List.cons.injEq] at hr
            exact absurd (List.mem_cons_self r0 rt)
              (hr.1 ▸ hd w0 (List.mem_cons_self w0 wt))
      · rw [rep_neg repl (Bool.not_eq_true _ ▸ hm)] at hp
        cases w with
        | nil => rfl
        | cons w0 wt =>
          obtain ⟨rest2, hr, htl⟩ := isPfx_head hp
          simp only [List.cons.injEq] at hr
          have := IH rest (by simp) wt
            (fun c hc => hd c (List.mem_cons_of_mem w0 hc)) (hr.2 ▸ htl)
          show (w0 == c0 && isPfx wt rest) = true
          simp [hr.1, this]

/-- Undoing a replacement: if the replacement string shares no symbol with the
input, replacing it back restores the input. -/
theorem rep_roundtrip {pat repl : Str} (ha : pat ≠ []) (hb : repl ≠ []) :
    ∀ s, (∀ c ∈ repl, c ∉ s) → rep (rep s pat repl) repl pat = s := by
  intro s
  induction s using str_length_ind with
  | ind s IH =>
    intro hd
    cases s with
    | nil => rw [rep_nil repl ha, rep_nil pat hb]
    | cons c0 rest =>
      by_cases hp : isPfx pat (c0 :: rest) = true
      · rw [rep_pos repl ha hp, rep_pos pat hb (isPfx_append repl _), List.drop_left]
        have hsub : ∀ c ∈ repl, c ∉ (c0 :: rest).drop pat.length := by
          intro c hc hmem
          exact (hd c hc) (List.mem_of_mem_drop hmem)
        rw [IH _ (drop_length_lt ha hp) hsub]
        exact (exists_of_isPfx hp).symm
      · rw [rep_neg repl (Bool.not_eq_true _ ▸ hp)]
        have hf : isPfx repl (c0 :: rep rest pat repl) = false :=
          isPfx_false_of_head _ hb
            (fun hmem => (hd c0 hmem) (List.mem_cons_self c0 rest))
        rw [rep_neg pat hf]
        have hsub : ∀ c ∈ repl, c ∉ rest := by
          intro c hc hmem
          exact (hd c hc) (List.mem_cons_of_mem c0 hmem)
        rw [IH rest (by simp) hsub]

theorem hasSub_nil_pat (s : Str) : hasSub s [] = true := by
  cases s with
  | nil => rfl
  | cons c rest => simp [hasSub, isPfx]

/-- Occurrence search skips over a block sharing no symbol with the pattern. -/
theorem sub_skip {w : Str} (u s : Str) (hd : ∀ c ∈ u, c ∉ w) :
    hasSub (u ++ s) w = hasSub s w := by
  by_cases hw : w = []
  · subst hw; rw [hasSub_nil_pat, hasSub_nil_pat]
  · induction u with
    | nil => rfl
    | cons c u' ih =>
      have hf : isPfx w (c :: (u' ++ s)) = false :=
        isPfx_false_of_head _ hw (hd c (List.mem_cons_self c u'))
      rw [List.cons_append]
      show (isPfx w (c :: (u' ++ s)) || hasSub (u' ++ s) w) = hasSub s w
      rw [hf, Bool.false_or]
      exact ih (fun x hx => hd x (List.mem_cons_of_mem c hx))

/-- After replacing `pat` by a string sharing no symbol with `pat`, the
pattern no longer occurs anywhere. -/
theorem no_occ {pat repl : Str} (ha : pat ≠ []) (hb : repl ≠ [])
    (hd : ∀ c ∈ repl, c ∉ pat) :
    ∀ s, hasSub (rep s pat repl) pat = false := by
  intro s
  induction s using str_length_ind with
  | ind s IH =>
    cases s with
    | nil =>
      rw [rep_nil repl ha]
      show isPfx pat [] = false
      cases pat with
      | nil => exact absurd rfl ha
      | cons p0 pt => rfl
    | cons c0 rest =>
      by_cases hp : isPfx pat (c0 :: rest) = true
      · rw [rep_pos repl ha hp, sub_skip repl _ hd]
        exact IH _ (drop_length_lt ha hp)
      · rw [rep_neg repl (Bool.not_eq_true _ ▸ hp)]
        show (isPfx pat (c0 :: rep rest pat repl) || hasSub (rep rest pat repl) pat) = false
        rw [IH rest (by simp), Bool.or_false]
        have hk := pfx_keep ha hb (c0 :: rest) pat (not_mem_swap hd) (Bool.not_eq_true _ ▸ hp)
        rw [rep_neg repl (Bool.not_eq_true _ ▸ hp)] at hk
        exact hk

/-- An occurrence of `w` in the replaced string, where `w` shares no symbol
with the replacement string, was already an occurrence in the input. -/
theorem occ_back {pat repl w : Str} (ha : pat ≠ []) (hb : repl ≠ [])
    (hw : w ≠ []) (hd : ∀ c ∈ w, c ∉ repl) :
    ∀ s, hasSub (rep s pat repl) w = true → hasSub s w = true := by
  intro s
  induction s using str_length_ind with
  | ind s IH =>
    intro h
    cases s with
    | nil =>
      rw [rep_nil repl ha] at h
      cases w with
      | nil => exact absurd rfl hw
      | cons w0 wt => exact absurd h (by simp [hasSub, isPfx])
    | cons c0 rest =>
      by_cases hp : isPfx pat (c0 :: rest) = true
      · rw [rep_pos repl ha hp, sub_skip repl _ (not_mem_swap hd)] at h
        have := IH _ (drop_length_lt ha hp) h
        rw [exists_of_isPfx hp]
        exact hasSub_append_left pat this
      · rw [rep_neg repl (Bool.not_eq_true _ ▸ hp)] at h
        rcases Bool.or_eq_true_iff.mp h with h1 | h2
        · cases w with
          | nil => exact absurd rfl hw
          | cons w0 wt =>
            obtain ⟨rest2, hr, htl⟩ := isPfx_head h1
            simp only [List.cons.injEq] at hr
            have := pfx_back ha hb rest wt
              (fun c hc => hd c (List.mem_cons_of_mem w0 hc)) (hr.2 ▸ htl)
            show (isPfx (w0 :: wt) (c0 :: rest) || hasSub rest (w0 :: wt)) = true
            have hpfx : isPfx (w0 :: wt) (c0 :: rest) = true := by
              show (w0 == c0 && isPfx wt rest) = true
              simp [hr.1, this]
            simp [hpfx]
        · exact hasSub_of_tail (IH rest (by simp) h2)

theorem cnt_front {w : Str} (hw : w ≠ []) (s : Str) :
    countOcc (w ++ s) w = 1 + countOcc s w := by
  rw [cnt_pos hw (isPfx_append w s), List.drop_left]

theorem cnt_skip {w : Str} (u s : Str) (hw : w ≠ []) (hd : ∀ c ∈ u, c ∉ w) :
    countOcc (u ++ s) w = countOcc s w := by
  induction u with
  | nil => rfl
  | cons c u' ih =>
    have hf : isPfx w (c :: (u' ++ s)) = false :=
      isPfx_false_of_head _ hw (hd c (List.mem_cons_self c u'))
    rw [List.cons_append, cnt_neg hf]
    exact ih (fun x hx => hd x (List.mem_cons_of_mem c hx))

/-- The replacement string occurs in the output exactly as often as the
pattern occurred in the input, provided it shares no symbol with the input. -/
theorem cnt_transfer {pat repl : Str} (ha : pat ≠ []) (hb : repl ≠ []) :
    ∀ s, (∀ c ∈ repl, c ∉ s) → countOcc (rep s pat repl) repl = countOcc s pat := by
  intro s
  induction s using str_length_ind with
  | ind s IH =>
    intro hd
    cases s with
    | nil => rw [rep_nil repl ha, cnt_nil ha, cnt_nil hb]
    | cons c0 rest =>
      by_cases hp : isPfx pat (c0 :: rest) = true
      · rw [rep_pos repl ha hp, cnt_front hb, cnt_pos ha hp]
        have hsub : ∀ c ∈ repl, c ∉ (c0 :: rest).drop pat.length :=
          fun c hc hmem => (hd c hc) (List.mem_of_mem_drop hmem)
        rw [IH _ (drop_length_lt ha hp) hsub]
      · rw [rep_neg repl (Bool.not_eq_true _ ▸ hp)]
        have hf : isPfx repl (c0 :: rep rest pat repl) = false :=
          isPfx_false_of_head _ hb
            (fun hmem => (hd c0 hmem) (List.mem_cons_self c0 rest))
        rw [cnt_neg hf, cnt_neg (Bool.not_eq_true _ ▸ hp)]
        exact IH rest (by simp)
          (fun c hc hmem => (hd c hc) (List.mem_cons_of_mem c0 hmem))

/-- Replacing a pattern sharing no symbol with `w` leaves the number of
occurrences of `w` unchanged, provided `w` also shares no symbol with the
replacement string. -/
theorem cnt_preserve {pat repl w : Str} (ha : pat ≠ []) (hb : repl ≠ [])
    (hw : w ≠ []) (hdp : ∀ c ∈ w, c ∉ pat) (hdr : ∀ c ∈ w, c ∉ repl) :
    ∀ s, countOcc (rep s pat repl) w = countOcc s w := by
  intro s
  induction s using str_length_ind with
  | ind s IH =>
    cases s with
    | nil => rw [rep_nil repl ha]
    | cons c0 rest =>
      by_cases hp : isPfx pat (c0 :: rest) = true
      · rw [rep_pos repl ha hp, cnt_skip repl _ hw (not_mem_swap hdr)]
        rw [IH _ (drop_length_lt ha hp)]
        conv_rhs => rw [exists_of_isPfx hp]
        rw [cnt_skip pat _ hw (not_mem_swap hdp)]
      · by_cases hpw : isPfx w (c0 :: rest) = true
        · have hdecomp := exists_of_isPfx hpw
          rw [hdecomp, rep_skip repl w _ ha hdp, cnt_front hw, cnt_front hw]
          rw [IH _ (drop_length_lt hw hpw)]
        · rw [rep_neg repl (Bool.not_eq_true _ ▸ hp)]
          have hf := pfx_keep ha hb (c0 :: rest) w hdr (Bool.not_eq_true _ ▸ hpw)
          rw [rep_neg repl (Bool.not_eq_true _ ▸ hp)] at hf
          rw [cnt_neg hf, cnt_neg (Bool.not_eq_true _ ▸ hpw), IH rest (by simp)]

/-- If `a1` is a prefix of `s` and shares no symbol with `a2`, then `a2` is
not a prefix of `s`. -/
theorem pfx_disjoint_excl {a1 a2 s : Str} (h2 : a2 ≠ [])
    (d12 : ∀ c ∈ a1, c ∉ a2) (hp1 : isPfx a1 s = true) (h1 : a1 ≠ []) :
    isPfx a2 s = false := by
  cases a1 with
  | nil => exact absurd rfl h1
  | cons x xt =>
    obtain ⟨rest, rfl, -⟩ := isPfx_head hp1
    exact isPfx_false_of_head _ h2 (d12 x (List.mem_cons_self x xt))

/-- Two replacements whose patterns and replacement strings are pairwise
symbol-disjoint commute. -/
theorem rep_comm {a1 b1 a2 b2 : Str} (h1 : a1 ≠ []) (h2 : a2 ≠ [])
    (hb1 : b1 ≠ []) (hb2 : b2 ≠ []) (d12 : ∀ c ∈ a1, c ∉ a2)
    (db1 : ∀ c ∈ b1, c ∉ a2) (db2 : ∀ c ∈ b2, c ∉ a1) :
    ∀ s, rep (rep s a1 b1) a2 b2 = rep (rep s a2 b2) a1 b1 := by
  intro s
  induction s using str_length_ind with
  | ind s IH =>
    by_cases hp1 : isPfx a1 s = true
    · rw [rep_pos b1 h1 hp1, rep_skip b2 b1 _ h2 db1]
      conv_rhs => rw [exists_of_isPfx hp1]
      rw [rep_skip b2 a1 _ h2 d12, rep_pos b1 h1 (isPfx_append a1 _), List.drop_left]
      rw [IH _ (drop_length_lt h1 hp1)]
    · by_cases hp2 : isPfx a2 s = true
      · rw [rep_pos b2 h2 hp2, rep_skip b1 b2 _ h1 db2]
        conv_lhs => rw [exists_of_isPfx hp2]
        rw [rep_skip b1 a2 _ h1 (not_mem_swap d12),
          rep_pos b2 h2 (isPfx_append a2 _), List.drop_left]
        rw [IH _ (drop_length_lt h2 hp2)]
      · cases s with
        | nil => simp [rep_nil b1 h1, rep_nil b2 h2]
        | cons c0 rest =>
          have hf1 : isPfx a1 (c0 :: rest) = false := Bool.not_eq_true _ ▸ hp1
          have hf2 : isPfx a2 (c0 :: rest) = false := Bool.not_eq_true _ ▸ hp2
          rw [rep_neg b1 hf1, rep_neg b2 hf2]
          have hk2 := pfx_keep h1 hb1 (c0 :: rest) a2 (not_mem_swap db1) hf2
          rw [rep_neg b1 hf1] at hk2
          have hk1 := pfx_keep h2 hb2 (c0 :: rest) a1 (not_mem_swap db2) hf1
          rw [rep_neg b2 hf2] at hk1
          rw [rep_neg b2 hk2, rep_neg b1 hk1, IH rest (by simp)]

/-! ### Sorting and overlap-resolution lemmas -/

theorem insertByStart_perm (e : Entity) (l : List Entity) :
    List.Perm (insertByStart e l) (e :: l) := by
  induction l with
  | nil => exact List.Perm.refl _
  | cons x xs ih =>
    simp only [insertByStart]
    by_cases h : x.start < e.start
    · rw [if_pos h]
      exact (ih.cons x).trans (List.Perm.swap e x xs)
    · rw [if_neg h]

theorem sortByStart_perm (l : List Entity) : List.Perm (sortByStart l) l := by
  induction l with
  | nil => exact List.Perm.refl _
  | cons e rest ih => exact (insertByStart_perm e (sortByStart rest)).trans (ih.cons e)

theorem insertByStart_sorted (e : Entity) (l : List Entity)
    (h : List.Pairwise (fun a b => a.start ≤ b.start) l) :
    List.Pairwise (fun a b => a.start ≤ b.start) (insertByStart e l) := by
  induction l with
  | nil => simp [insertByStart]
  | cons x xs ih =>
    rcases List.pairwise_cons.mp h with ⟨hx, hxs⟩
    simp only [insertByStart]
    by_cases hlt : x.start < e.start
    · rw [if_pos hlt]
      refine List.pairwise_cons.mpr ⟨?_, ih hxs⟩
      intro y hy
      rcases List.mem_cons.mp ((insertByStart_perm e xs).mem_iff.mp hy) with h1 | h2
      · rw [h1]; omega
      · exact hx y h2
    · rw [if_neg hlt]
      refine List.pairwise_cons.mpr ⟨?_, h⟩
      intro y hy
      rcases List.mem_cons.mp hy with rfl | h2
      · omega
      · have := hx y h2
        omega

theorem sortByStart_sorted (l : List Entity) :
    List.Pairwise (fun a b => a.start ≤ b.start) (sortByStart l) := by
  induction l with
  | nil => simp [sortByStart]
  | cons e rest ih => exact insertByStart_sorted e (sortByStart rest) ih

theorem scanKeep_sublist : ∀ (g : Option Entity) (l : List Entity),
    (scanKeep g l).Sublist l := by
  intro g l
  induction l generalizing g with
  | nil =>
    cases g with
    | none => exact List.Sublist.refl _
    | some gg => exact List.Sublist.refl _
  | cons x xs ih =>
    cases g with
    | none => exact (ih (some x)).cons₂ x
    | some gg =>
      by_cases h : gg.endPos ≤ x.start
      · simp only [scanKeep, if_pos h]
        exact (ih (some x)).cons₂ x
      · simp only [scanKeep, if_neg h]
        exact (ih (some gg)).cons x

theorem scanKeep_ge : ∀ (e : Entity) (l : List Entity),
    List.Pairwise (fun a b => a.start ≤ b.start) l →
    ∀ y ∈ scanKeep (some e) l, e.endPos ≤ y.start := by
  intro e l
  induction l generalizing e with
  | nil => intro _ y hy; exact absurd hy (List.not_mem_nil y)
  | cons x xs ih =>
    intro h y hy
    rcases List.pairwise_cons.mp h with ⟨hx, hxs⟩
    by_cases hk : e.endPos ≤ x.start
    · simp only [scanKeep, if_pos hk] at hy
      rcases List.mem_cons.mp hy with rfl | hy'
      · exact hk
      · have hyxs : y ∈ xs := (scanKeep_sublist (some x) xs).subset hy'
        have := hx y hyxs
        omega
    · simp only [scanKeep, if_neg hk] at hy
      exact ih e hxs y hy

theorem scanKeep_pairwise : ∀ (g : Option Entity) (l : List Entity),
    List.Pairwise (fun a b => a.start ≤ b.start) l →
    List.Pairwise (fun a b => a.endPos ≤ b.start) (scanKeep g l) := by
  intro g l
  induction l generalizing g with
  | nil =>
    cases g with
    | none => simp [scanKeep]
    | some gg => simp [scanKeep]
  | cons x xs ih =>
    intro h
    rcases List.pairwise_cons.mp h with ⟨hx, hxs⟩
    cases g with
    | none =>
      exact List.pairwise_cons.mpr ⟨scanKeep_ge x xs hxs, ih (some x) hxs⟩
    | some gg =>
      by_cases hk : gg.endPos ≤ x.start
      · simp only [scanKeep, if_pos hk]
        exact List.pairwise_cons.mpr ⟨scanKeep_ge x xs hxs, ih (some x) hxs⟩
      · simp only [scanKeep, if_neg hk]
        exact ih (some gg) hxs

theorem resolveOverlaps_eq : ∀ (l acc : List Entity),
    List.foldl resolveStep acc l = acc ++ scanKeep acc.getLast? l := by
  intro l
  induction l with
  | nil =>
    intro acc
    cases hg : acc.getLast? <;> simp [scanKeep]
  | cons x xs ih =>
    intro acc
    show List.foldl resolveStep (resolveStep acc x) xs = acc ++ scanKeep acc.getLast? (x :: xs)
    cases hg : acc.getLast? with
    | none =>
      have hstep : resolveStep acc x = acc ++ [x] := by simp [resolveStep, hg]
      rw [hstep, ih, List.getLast?_concat]
      simp [scanKeep]
    | some g =>
      by_cases hk : g.endPos ≤ x.start
      · have hstep : resolveStep acc x = acc ++ [x] := by simp [resolveStep, hg, hk]
        rw [hstep, ih, List.getLast?_concat]
        simp [scanKeep, hk]
      · have hstep : resolveStep acc x = acc := by simp [resolveStep, hg, hk]
        rw [hstep, ih, hg]
        simp [scanKeep, hk]

theorem resolveOverlaps_out (l : List Entity) : resolveOverlaps l = scanKeep none l := by
  show List.foldl resolveStep [] l = _
  rw [resolveOverlaps_eq]
  rfl

theorem resolveOverlaps_pairwise (l : List Entity) :
    List.Pairwise (fun a b => a.endPos ≤ b.start) (resolveOverlaps (sortByStart l)) ∧
    List.Pairwise (fun a b => a.start ≤ b.start) (resolveOverlaps (sortByStart l)) := by
  rw [resolveOverlaps_out]
  exact ⟨scanKeep_pairwise none _ (sortByStart_sorted l),
    List.Pairwise.sublist (scanKeep_sublist none _) (sortByStart_sorted l)⟩

/-! ### Detection span lemmas -/

theorem strFind_spec : ∀ (s v : Str) (pos : Nat), strFind s v = some pos →
    isPfx v (s.drop pos) = true ∧ pos + v.length ≤ s.length := by
  intro s
  induction s with
  | nil =>
    intro v pos h
    unfold strFind at h
    by_cases hp : isPfx v [] = true
    · rw [if_pos hp] at h
      cases h
      exact ⟨hp, by simpa using isPfx_length hp⟩
    · rw [if_neg hp] at h
      exact absurd h (by simp)
  | cons c rest ih =>
    intro v pos h
    unfold strFind at h
    by_cases hp : isPfx v (c :: rest) = true
    · rw [if_pos hp] at h
      cases h
      exact ⟨hp, by simpa using isPfx_length hp⟩
    · rw [if_neg hp] at h
      rcases Option.map_eq_some'.mp h with ⟨p', hp', rfl⟩
      rcases ih v p' hp' with ⟨h1, h2⟩
      refine ⟨by simpa using h1, ?_⟩
      simp only [List.length_cons]
      omega

theorem strFind_nil_pat (s : Str) : strFind s [] = some 0 := by
  unfold strFind
  have : isPfx [] s = true := rfl
  rw [if_pos this]

theorem customScanGo_empty_val (text : Str) : ∀ (fuel start : Nat),
    customScanGo text [] fuel start = none := by
  intro fuel
  induction fuel with
  | zero =>
    intro start
    unfold customScanGo
    by_cases h : text.length < start
    · rw [if_pos h]
    · rw [if_neg h, strFind_nil_pat]
  | succ f ih =>
    intro start
    unfold customScanGo
    by_cases h : text.length < start
    · rw [if_pos h]
    · rw [if_neg h, strFind_nil_pat]
      simp [ih]

theorem customScanGo_spec : ∀ (fuel : Nat) (text value : Str) (start : Nat)
    (spans : List (Nat × Nat)), customScanGo text value fuel start = some spans →
    ∀ sp ∈ spans, start ≤ sp.1 ∧ isPfx value (text.drop sp.1) = true ∧
      sp.2 = sp.1 + value.length ∧ sp.1 + value.length ≤ text.length := by
  intro fuel
  induction fuel with
  | zero =>
    intro text value start spans h
    unfold customScanGo at h
    by_cases hb : text.length < start
    · rw [if_pos hb] at h; exact absurd h (by simp)
    · rw [if_neg hb] at h
      cases hf : strFind (text.drop start) value with
      | none =>
        rw [hf] at h
        cases h
        intro sp hsp
        exact absurd hsp (List.not_mem_nil sp)
      | some pos => rw [hf] at h; exact absurd h (by simp)
  | succ f ih =>
    intro text value start spans h
    unfold customScanGo at h
    by_cases hb : text.length < start
    · rw [if_pos hb] at h; exact absurd h (by simp)
    · rw [if_neg hb] at h
      cases hf : strFind (text.drop start) value with
      | none =>
        rw [hf] at h
        cases h
        intro sp hsp
        exact absurd hsp (List.not_mem_nil sp)
      | some pos =>
        rw [hf] at h
        rcases Option.map_eq_some'.mp h with ⟨rest, hrest, rfl⟩
        rcases strFind_spec _ _ _ hf with ⟨hpfx, hlen⟩
        intro sp hsp
        rcases List.mem_cons.mp hsp with rfl | hsp'
        · refine ⟨by omega, ?_, rfl, ?_⟩
          · rw [List.drop_drop] at hpfx
            simpa [Nat.add_comm] using hpfx
          · simp only [List.length_drop] at hlen
            omega
        · have := ih text value (start + pos + 1) rest hrest sp hsp'
          refine ⟨by omega, this.2.1, this.2.2.1, this.2.2.2⟩

theorem customValuesScan_valid (text : Str) (et : EntityType) :
    ∀ (vs : List Str) (ents : List Entity), customValuesScan text et vs = some ents →
    ∀ e ∈ ents, e.start < e.endPos ∧ e.endPos ≤ text.length ∧
      (text.drop e.start).take (e.endPos - e.start) = e.value := by
  intro vs
  induction vs with
  | nil =>
    intro ents h e he
    cases h
    exact absurd he (List.not_mem_nil e)
  | cons v vs' ih =>
    intro ents h e he
    unfold customValuesScan at h
    cases hscan : customScan text v with
    | none => rw [hscan] at h; exact absurd h (by simp)
    | some spans =>
      cases hrec : customValuesScan text et vs' with
      | none => rw [hscan, hrec] at h; exact absurd h (by simp)
      | some rest =>
        rw [hscan, hrec] at h
        simp only [Option.some.injEq] at h
        subst h
        rcases List.mem_append.mp he with h1 | h2
        · rcases List.mem_map.mp h1 with ⟨sp, hsp, rfl⟩
          have hv : v ≠ [] := by
            intro hveq
            rw [hveq] at hscan
            rw [show customScan text [] = none from customScanGo_empty_val text _ 0] at hscan
            exact absurd hscan (by simp)
          rcases customScanGo_spec _ text v 0 spans hscan sp hsp with ⟨-, hpfx, hend, hle⟩
          have hlen1 : 1 ≤ v.length := by
            cases v with
            | nil => exact absurd rfl hv
            | cons a as => simp
          refine ⟨by simp only; omega, by simp only; omega, ?_⟩
          show (text.drop sp.1).take (sp.2 - sp.1) = v
          obtain ⟨t, ht⟩ := (isPfx_iff v (text.drop sp.1)).mp hpfx
          rw [ht, hend]
          have : sp.1 + v.length - sp.1 = v.length := by omega
          rw [this, List.take_left]
        · exact ih rest hrec e h2

theorem customEntitiesScan_valid (text : Str) :
    ∀ (cm : List (EntityType × List Str)) (ents : List Entity),
    customEntitiesScan text cm = some ents →
    ∀ e ∈ ents, e.start < e.endPos ∧ e.endPos ≤ text.length ∧
      (text.drop e.start).take (e.endPos - e.start) = e.value := by
  intro cm
  induction cm with
  | nil =>
    intro ents h e he
    cases h
    exact absurd he (List.not_mem_nil e)
  | cons pr rest ih =>
    intro ents h e he
    unfold customEntitiesScan at h
    cases hv : customValuesScan text pr.1 pr.2 with
    | none =>
      rw [show (pr : EntityType × List Str) = (pr.1, pr.2) from rfl, hv] at h
      exact absurd h (by simp)
    | some l1 =>
      cases hr : customEntitiesScan text rest with
      | none =>
        rw [show (pr : EntityType × List Str) = (pr.1, pr.2) from rfl, hv, hr] at h
        exact absurd h (by simp)
      | some l2 =>
        rw [show (pr : EntityType × List Str) = (pr.1, pr.2) from rfl, hv, hr] at h
        simp only [Option.some.injEq] at h
        subst h
        rcases List.mem_append.mp he with h1 | h2
        · exact customValuesScan_valid text pr.1 pr.2 l1 hv e h1
        · exact ih l2 hr e h2

theorem regexEntities_valid {R : RegexOracle} (hR : ValidRegex R)
    (patterns : List EntityType) (text : Str) :
    ∀ e ∈ regexEntities R patterns text,
      e.start < e.endPos ∧ e.endPos ≤ text.length ∧
      (text.drop e.start).take (e.endPos - e.start) = e.value := by
  intro e he
  unfold regexEntities at he
  rcases List.mem_flatten.mp he with ⟨l, hl, hel⟩
  rcases List.mem_map.mp hl with ⟨et, -, rfl⟩
  rcases List.mem_map.mp hel with ⟨sp, hsp, rfl⟩
  rcases hR et text sp hsp with ⟨h1, h2⟩
  exact ⟨h1, h2, rfl⟩

theorem detect_mem_candidates {R : RegexOracle} {patterns : List EntityType}
    {text : Str} {custom : Option (List (EntityType × List Str))}
    {ents : List Entity} (h : detect R patterns text custom = some ents) :
    ∀ e ∈ ents,
      e ∈ regexEntities R patterns text ∨
      ∃ cm ce, custom = some cm ∧ customEntitiesScan text cm = some ce ∧ e ∈ ce := by
  intro e he
  unfold detect at h
  cases custom with
  | none =>
    simp only [Option.some.injEq] at h
    subst h
    rw [resolveOverlaps_out] at he
    have := (sortByStart_perm _).subset ((scanKeep_sublist none _).subset he)
    exact Or.inl this
  | some cm =>
    have h' : (match customEntitiesScan text cm with
      | none => none
      | some ce =>
        some (resolveOverlaps (sortByStart (regexEntities R patterns text ++ ce)))) =
        some ents := h
    cases hc : customEntitiesScan text cm with
    | none => rw [hc] at h'; exact absurd h' (by simp)
    | some ce =>
      rw [hc] at h'
      simp only [Option.some.injEq] at h'
      subst h'
      rw [resolveOverlaps_out] at he
      have := (sortByStart_perm _).subset ((scanKeep_sublist none _).subset he)
      rcases List.mem_append.mp this with h1 | h2
      · exact Or.inl h1
      · exact Or.inr ⟨cm, ce, rfl, hc, h2⟩

theorem detect_valid {R : RegexOracle} (hR : ValidRegex R)
    {patterns : List EntityType} {text : Str}
    {custom : Option (List (EntityType × List Str))} {ents : List Entity}
    (h : detect R patterns text custom = some ents) :
    ∀ e ∈ ents, e.start < e.endPos ∧ e.endPos ≤ text.length ∧
      (text.drop e.start).take (e.endPos - e.start) = e.value := by
  intro e he
  rcases detect_mem_candidates h e he with h1 | ⟨cm, ce, -, hc, h2⟩
  · exact regexEntities_valid hR patterns text e h1
  · exact customEntitiesScan_valid text cm ce hc e h2

theorem detect_value_chars {R : RegexOracle} (hR : ValidRegex R)
    {patterns : List EntityType} {text : Str}
    {custom : Option (List (EntityType × List Str))} {ents : List Entity}
    (h : detect R patterns text custom = some ents) :
    ∀ e ∈ ents, ∀ c ∈ e.value, c ∈ text := by
  intro e he c hc
  rcases detect_valid hR h e he with ⟨-, -, hslice⟩
  rw [← hslice] at hc
  exact List.mem_of_mem_drop (List.mem_of_mem_take hc)

theorem detect_value_nonempty {R : RegexOracle} (hR : ValidRegex R)
    {patterns : List EntityType} {text : Str}
    {custom : Option (List (EntityType × List Str))} {ents : List Entity}
    (h : detect R patterns text custom = some ents) :
    ∀ e ∈ ents, e.value ≠ [] := by
  intro e he hveq
  rcases detect_valid hR h e he with ⟨h1, h2, hslice⟩
  rw [hveq] at hslice
  have := List.take_eq_nil_iff.mp hslice
  rcases this with h3 | h3
  · omega
  · have : text.length ≤ e.start := by
      have := List.drop_eq_nil_iff.mp h3
      omega
    omega

/-! ### Placeholder-allocation lemmas -/

theorem lookupVal_none_iff (l : List (Str × Str)) (v : Str) :
    lookupVal l v = none ↔ v ∉ l.map Prod.fst := by
  induction l with
  | nil => simp [lookupVal]
  | cons pr rest ih =>
    rw [show (pr : Str × Str) = (pr.1, pr.2) from rfl]
    show (if pr.1 = v then some pr.2 else lookupVal rest v) = none ↔ _
    by_cases h : pr.1 = v
    · rw [if_pos h]
      simp [h]
    · rw [if_neg h]
      simp only [List.map_cons, List.mem_cons, ih]
      constructor
      · rintro hn (h1 | h2)
        · exact h h1.symm
        · exact hn h2
      · intro hn h2
        exact hn (Or.inr h2)

theorem lookupVal_some_mem {l : List (Str × Str)} {v p : Str}
    (h : lookupVal l v = some p) : (v, p) ∈ l := by
  induction l with
  | nil => exact absurd h (by simp [lookupVal])
  | cons pr rest ih =>
    rw [show (pr : Str × Str) = (pr.1, pr.2) from rfl] at h ⊢
    by_cases he : pr.1 = v
    · rw [show lookupVal ((pr.1, pr.2) :: rest) v =
        (if pr.1 = v then some pr.2 else lookupVal rest v) from rfl, if_pos he] at h
      cases h
      rw [he]
      exact List.mem_cons_self _ _
    · rw [show lookupVal ((pr.1, pr.2) :: rest) v =
        (if pr.1 = v then some pr.2 else lookupVal rest v) from rfl, if_neg he] at h
      exact List.mem_cons_of_mem _ (ih h)

theorem mem_buildUnique_acc (cfg : AnonymizerConfig) (O : UuidOracle) :
    ∀ (ents : List Entity) (acc : List (Str × Str)) (st : GenState)
      (pr : Str × Str), pr ∈ acc → pr ∈ (buildUnique cfg O ents acc st).1 := by
  intro ents
  induction ents with
  | nil => intro acc st pr h; exact h
  | cons e rest ih =>
    intro acc st pr h
    show pr ∈ (buildUnique cfg O (e :: rest) acc st).1
    unfold buildUnique
    cases hl : lookupVal acc e.value with
    | some p => exact ih acc st pr h
    | none => exact ih _ _ pr (List.mem_append_left _ h)

theorem buildUnique_covers (cfg : AnonymizerConfig) (O : UuidOracle) :
    ∀ (ents : List Entity) (acc : List (Str × Str)) (st : GenState) (e : Entity),
      e ∈ ents → ∃ pr ∈ (buildUnique cfg O ents acc st).1, pr.1 = e.value := by
  intro ents
  induction ents with
  | nil => intro acc st e h; exact absurd h (List.not_mem_nil e)
  | cons e0 rest ih =>
    intro acc st e h
    rcases List.mem_cons.mp h with rfl | h2
    · show ∃ pr ∈ (buildUnique cfg O (e :: rest) acc st).1, pr.1 = e.value
      unfold buildUnique
      cases hl : lookupVal acc e.value with
      | some p =>
        exact ⟨(e.value, p), mem_buildUnique_acc cfg O rest acc st _
          (lookupVal_some_mem hl), rfl⟩
      | none =>
        refine ⟨(e.value, (generate_placeholder cfg O e.entity_type st).1), ?_, rfl⟩
        exact mem_buildUnique_acc cfg O rest _ _ _
          (List.mem_append_right _ (List.mem_cons_self _ _))
    · show ∃ pr ∈ (buildUnique cfg O (e0 :: rest) acc st).1, pr.1 = e.value
      unfold buildUnique
      cases hl : lookupVal acc e0.value with
      | some p => exact ih acc st e h2
      | none => exact ih _ _ e h2

theorem buildUnique_keys_nodup (cfg : AnonymizerConfig) (O : UuidOracle) :
    ∀ (ents : List Entity) (acc : List (Str × Str)) (st : GenState),
      (acc.map Prod.fst).Nodup → ((buildUnique cfg O ents acc st).1.map Prod.fst).Nodup := by
  intro ents
  induction ents with
  | nil => intro acc st h; exact h
  | cons e rest ih =>
    intro acc st h
    show ((buildUnique cfg O (e :: rest) acc st).1.map Prod.fst).Nodup
    unfold buildUnique
    cases hl : lookupVal acc e.value with
    | some p => exact ih acc st h
    | none =>
      apply ih
      rw [List.map_append]
      simp only [List.map_cons, List.map_nil]
      rw [List.nodup_append]
      refine ⟨h, List.nodup_singleton _, ?_⟩
      intro v hv hv2
      simp only [List.mem_singleton] at hv2
      subst hv2
      exact ((lookupVal_none_iff acc e.value).mp hl) hv

theorem buildUnique_src (cfg : AnonymizerConfig) (O : UuidOracle) :
    ∀ (ents : List Entity) (acc : List (Str × Str)) (st : GenState),
      ∀ pr ∈ (buildUnique cfg O ents acc st).1,
        pr ∈ acc ∨ ∃ e ∈ ents, pr.1 = e.value := by
  intro ents
  induction ents with
  | nil => intro acc st pr h; exact Or.inl h
  | cons e rest ih =>
    intro acc st pr h
    rw [show buildUnique cfg O (e :: rest) acc st =
      (match lookupVal acc e.value with
        | some _ => buildUnique cfg O rest acc st
        | none =>
          buildUnique cfg O rest
            (acc ++ [(e.value, (generate_placeholder cfg O e.entity_type st).1)])
            (generate_placeholder cfg O e.entity_type st).2) from rfl] at h
    cases hl : lookupVal acc e.value with
    | some p =>
      rw [hl] at h
      rcases ih acc st pr h with h1 | ⟨e', he', hv⟩
      · exact Or.inl h1
      · exact Or.inr ⟨e', List.mem_cons_of_mem e he', hv⟩
    | none =>
      rw [hl] at h
      rcases ih _ _ pr h with h1 | ⟨e', he', hv⟩
      · rcases List.mem_append.mp h1 with h2 | h3
        · exact Or.inl h2
        · simp only [List.mem_singleton] at h3
          subst h3
          exact Or.inr ⟨e, List.mem_cons_self e rest, rfl⟩
      · exact Or.inr ⟨e', List.mem_cons_of_mem e he', hv⟩

theorem generate_placeholder_short {cfg : AnonymizerConfig} (O : UuidOracle)
    (hfmt : cfg.placeholder_format = PlaceholderFormat.Short)
    (et : EntityType) (st : GenState) :
    generate_placeholder cfg O et st =
      (upperStr (type_pfx et) ++ '_' :: Nat.toDigits 10 (st.counter + 1),
       { st with counter := st.counter + 1 }) := by
  unfold generate_placeholder
  rw [hfmt]

theorem buildUnique_short {cfg : AnonymizerConfig} (O : UuidOracle)
    (hfmt : cfg.placeholder_format = PlaceholderFormat.Short) :
    ∀ (ents : List Entity) (acc : List (Str × Str)) (st : GenState),
      ∃ new, (buildUnique cfg O ents acc st).1 = acc ++ new ∧
        (buildUnique cfg O ents acc st).2.counter = st.counter + new.length ∧
        (buildUnique cfg O ents acc st).2.draws = st.draws ∧
        ∀ j (hj : j < new.length), ∃ et,
          (new.get ⟨j, hj⟩).2 =
            upperStr (type_pfx et) ++ '_' :: Nat.toDigits 10 (st.counter + j + 1) := by
  intro ents
  induction ents with
  | nil =>
    intro acc st
    exact ⟨[], by simp [buildUnique], by simp [buildUnique], by simp [buildUnique],
      fun j hj => absurd hj (by simp)⟩
  | cons e rest ih =>
    intro acc st
    show ∃ new, (buildUnique cfg O (e :: rest) acc st).1 = acc ++ new ∧ _ ∧ _ ∧ _
    unfold buildUnique
    cases hl : lookupVal acc e.value with
    | some p => exact ih acc st
    | none =>
      rw [generate_placeholder_short O hfmt]
      rcases ih (acc ++ [(e.value, upperStr (type_pfx e.entity_type) ++
        '_' :: Nat.toDigits 10 (st.counter + 1))]) { st with counter := st.counter + 1 }
        with ⟨new', h1, h2, h3, h4⟩
      refine ⟨(e.value, upperStr (type_pfx e.entity_type) ++
        '_' :: Nat.toDigits 10 (st.counter + 1)) :: new', ?_, ?_, ?_, ?_⟩
      · rw [h1, List.append_assoc]
        rfl
      · rw [h2]
        simp only [List.length_cons]
        omega
      · rw [h3]
      · intro j hj
        cases j with
        | zero =>
          refine ⟨e.entity_type, ?_⟩
          show upperStr (type_pfx e.entity_type) ++
            '_' :: Nat.toDigits 10 (st.counter + 1) = _
          rfl
        | succ j' =>
          have hj' : j' < new'.length := by
            simp only [List.length_cons] at hj
            omega
          rcases h4 j' hj' with ⟨et, het⟩
          refine ⟨et, ?_⟩
          show (new'.get ⟨j', hj'⟩).2 = _
          rw [het]
          show _ = upperStr (type_pfx et) ++
            '_' :: Nat.toDigits 10 (st.counter + (j' + 1) + 1)
          have : st.counter + 1 + j' + 1 = st.counter + (j' + 1) + 1 := by omega
          rw [this]

/-! ### Substitution-fold and mapping lemmas -/

theorem applyReplacements_append (t : Str) (l : List (Str × Str)) (x : Str × Str) :
    applyReplacements t (l ++ [x]) = rep (applyReplacements t l) x.1 x.2 := by
  unfold applyReplacements
  rw [List.foldl_append]
  rfl

theorem mem_applyReplacements :
    ∀ (l : List (Str × Str)) (t : Str) (c : Char), (∀ pr ∈ l, pr.1 ≠ []) →
      c ∈ applyReplacements t l → c ∈ t ∨ ∃ pr ∈ l, c ∈ pr.2 := by
  intro l
  induction l with
  | nil => intro t c _ h; exact Or.inl h
  | cons pr l' ih =>
    intro t c h1 h
    have hstep : applyReplacements t (pr :: l') = applyReplacements (rep t pr.1 pr.2) l' := rfl
    rw [hstep] at h
    rcases ih _ c (fun q hq => h1 q (List.mem_cons_of_mem pr hq)) h with h2 | ⟨q, hq, hc⟩
    · rcases mem_rep (h1 pr (List.mem_cons_self pr l')) h2 with h3 | h4
      · exact Or.inl h3
      · exact Or.inr ⟨pr, List.mem_cons_self pr l', h4⟩
    · exact Or.inr ⟨q, List.mem_cons_of_mem pr hq, hc⟩

theorem applyReplacements_undo :
    ∀ (pairs : List (Str × Str)) (text : Str),
      (∀ pr ∈ pairs, pr.1 ≠ [] ∧ pr.2 ≠ [] ∧ ∀ c ∈ pr.2, c ∉ text) →
      List.Pairwise (fun a b => ∀ c ∈ a.2, c ∉ b.2) pairs →
      List.foldl (fun t pr => rep t pr.2 pr.1) (applyReplacements text pairs)
        pairs.reverse = text := by
  intro pairs
  induction pairs using List.reverseRecOn with
  | nil => intro text _ _; rfl
  | append_singleton l x ih =>
    intro text h1 h2
    rcases List.pairwise_append.mp h2 with ⟨hl, -, hcross⟩
    have hx := h1 x (List.mem_append_right l (List.mem_cons_self x []))
    have hrev : (l ++ [x]).reverse = x :: l.reverse := by simp
    rw [hrev, applyReplacements_append]
    have hA : ∀ c ∈ x.2, c ∉ applyReplacements text l := by
      intro c hc hmem
      rcases mem_applyReplacements l text c
        (fun q hq => (h1 q (List.mem_append_left [x] hq)).1) hmem with h3 | ⟨q, hq, hcq⟩
      · exact (hx.2.2 c hc) h3
      · exact (hcross q hq x (List.mem_cons_self x []) c hcq) hc
    show List.foldl (fun t pr => rep t pr.2 pr.1)
      (rep (rep (applyReplacements text l) x.1 x.2) x.2 x.1) l.reverse = text
    rw [rep_roundtrip hx.1 hx.2.1 _ hA]
    exact ih text (fun q hq => h1 q (List.mem_append_left [x] hq)) hl

theorem insertAssoc_notmem : ∀ (m : List (Str × Str)) (k v : Str),
    k ∉ m.map Prod.fst → insertAssoc m k v = m ++ [(k, v)] := by
  intro m
  induction m with
  | nil => intro k v _; rfl
  | cons pr rest ih =>
    intro k v h
    simp only [List.map_cons, List.mem_cons] at h
    push_neg at h
    show (if pr.1 = k then (k, v) :: rest else (pr.1, pr.2) :: insertAssoc rest k v) = _
    rw [if_neg (fun he => h.1 he.symm), ih k v h.2]
    rfl

theorem buildMapping_swap :
    ∀ (pairs acc : List (Str × Str)), (pairs.map Prod.snd).Nodup →
      (∀ pr ∈ pairs, pr.2 ∉ acc.map Prod.fst) →
      List.foldl (fun m pr => insertAssoc m pr.2 pr.1) acc pairs =
        acc ++ pairs.map (fun pr => (pr.2, pr.1)) := by
  intro pairs
  induction pairs with
  | nil => intro acc _ _; simp
  | cons pr rest ih =>
    intro acc hnd hna
    have hnd' : (rest.map Prod.snd).Nodup := by
      simp only [List.map_cons] at hnd
      exact (List.nodup_cons.mp hnd).2
    have hhead : pr.2 ∉ rest.map Prod.snd := by
      simp only [List.map_cons] at hnd
      exact (List.nodup_cons.mp hnd).1
    show List.foldl (fun m pr => insertAssoc m pr.2 pr.1)
      (insertAssoc acc pr.2 pr.1) rest = _
    rw [insertAssoc_notmem acc pr.2 pr.1 (hna pr (List.mem_cons_self pr rest))]
    rw [ih (acc ++ [(pr.2, pr.1)]) hnd' ?side]
    · simp
    case side =>
      intro q hq
      rw [List.map_append]
      simp only [List.map_cons, List.map_nil, List.mem_append, List.mem_singleton]
      rintro (h1 | h2)
      · exact (hna q (List.mem_cons_of_mem pr hq)) h1
      · exact hhead (h2 ▸ List.mem_map_of_mem Prod.snd hq)

theorem buildMapping_eq {pairs : List (Str × Str)} (h : (pairs.map Prod.snd).Nodup) :
    buildMapping pairs = pairs.map (fun pr => (pr.2, pr.1)) := by
  unfold buildMapping
  rw [buildMapping_swap pairs [] h (by simp)]
  rfl

theorem lookupAssoc_swap :
    ∀ (pairs : List (Str × Str)) (v p : Str), (pairs.map Prod.snd).Nodup →
      (v, p) ∈ pairs →
      lookupAssoc (pairs.map (fun pr => (pr.2, pr.1))) p = some v := by
  intro pairs
  induction pairs with
  | nil => intro v p _ h; exact absurd h (List.not_mem_nil _)
  | cons pr rest ih =>
    intro v p hnd hmem
    simp only [List.map_cons] at hnd ⊢
    show (if pr.2 = p then some pr.1 else
      lookupAssoc (rest.map (fun pr => (pr.2, pr.1))) p) = some v
    rcases List.mem_cons.mp hmem with h1 | h2
    · rw [if_pos (congrArg Prod.snd h1).symm]
      rw [← h1]
    · by_cases he : pr.2 = p
      · exfalso
        have hmem2 : p ∈ rest.map Prod.snd := by
          have := List.mem_map_of_mem Prod.snd h2
          simpa using this
        apply (List.nodup_cons.mp hnd).1
        rw [he]
        exact hmem2
      · rw [if_neg he]
        exact ih v p (List.nodup_cons.mp hnd).2 h2

theorem insertByLenDesc_perm (k : Str) (l : List Str) :
    List.Perm (insertByLenDesc k l) (k :: l) := by
  induction l with
  | nil => exact List.Perm.refl _
  | cons x xs ih =>
    simp only [insertByLenDesc]
    by_cases h : k.length < x.length
    · rw [if_pos h]
      exact (ih.cons x).trans (List.Perm.swap k x xs)
    · rw [if_neg h]

theorem sortByLenDesc_perm (l : List Str) : List.Perm (sortByLenDesc l) l := by
  induction l with
  | nil => exact List.Perm.refl _
  | cons k rest ih => exact (insertByLenDesc_perm k (sortByLenDesc rest)).trans (ih.cons k)

theorem insertByLenDesc_sorted (k : Str) (l : List Str)
    (h : List.Pairwise (fun a b => b.length ≤ a.length) l) :
    List.Pairwise (fun a b => b.length ≤ a.length) (insertByLenDesc k l) := by
  induction l with
  | nil => simp [insertByLenDesc]
  | cons x xs ih =>
    rcases List.pairwise_cons.mp h with ⟨hx, hxs⟩
    simp only [insertByLenDesc]
    by_cases hlt : k.length < x.length
    · rw [if_pos hlt]
      refine List.pairwise_cons.mpr ⟨?_, ih hxs⟩
      intro y hy
      rcases List.mem_cons.mp ((insertByLenDesc_perm k xs).mem_iff.mp hy) with h1 | h2
      · rw [h1]; omega
      · exact hx y h2
    · rw [if_neg hlt]
      refine List.pairwise_cons.mpr ⟨?_, h⟩
      intro y hy
      rcases List.mem_cons.mp hy with rfl | h2
      · omega
      · have := hx y h2
        omega

theorem sortByLenDesc_sorted (l : List Str) :
    List.Pairwise (fun a b => b.length ≤ a.length) (sortByLenDesc l) := by
  induction l with
  | nil => simp [sortByLenDesc]
  | cons k rest ih => exact insertByLenDesc_sorted k (sortByLenDesc rest) ih

theorem foldl_lookup_to_pairs (M : List (Str × Str)) :
    ∀ (l : List (Str × Str)) (t : Str),
      (∀ pr ∈ l, lookupAssoc M pr.2 = some pr.1) →
      List.foldl (fun t p =>
        match lookupAssoc M p with
        | some original => rep t p original
        | none => t) t (l.map Prod.snd) =
      List.foldl (fun t pr => rep t pr.2 pr.1) t l := by
  intro l
  induction l with
  | nil => intro t _; rfl
  | cons pr rest ih =>
    intro t h
    simp only [List.map_cons, List.foldl_cons]
    rw [h pr (List.mem_cons_self pr rest)]
    exact ih _ (fun q hq => h q (List.mem_cons_of_mem pr hq))

theorem rep_id {s pat : Str} (repl : Str) (h : hasSub s pat = false) :
    rep s pat repl = s := by
  have hpat : pat ≠ [] := by
    intro hp
    rw [hp, hasSub_nil_pat] at h
    exact absurd h (by simp)
  induction s with
  | nil => exact rep_nil repl hpat
  | cons c rest ih =>
    have hh : (isPfx pat (c :: rest) || hasSub rest pat) = false := h
    rcases Bool.or_eq_false_iff.mp hh with ⟨h1, h2⟩
    rw [rep_neg repl h1, ih h2]

/-- Core of the amended round-trip property: on symbol-fresh placeholder
allocations, `deanonymize` inverts the substitution pass. -/
theorem deanonymize_undoes (pairs : List (Str × Str)) (text : Str)
    (h1 : ∀ pr ∈ pairs, pr.1 ≠ [] ∧ pr.2 ≠ [] ∧ ∀ c ∈ pr.2, c ∉ text)
    (h2 : List.Pairwise (fun a b => ∀ c ∈ a.2, c ∉ b.2) pairs)
    (h3 : ∀ pr ∈ pairs, ∀ c ∈ pr.1, c ∈ text)
    (hnd : (pairs.map Prod.snd).Nodup) :
    deanonymize (applyReplacements text pairs) (buildMapping pairs) = text := by
  have hM : buildMapping pairs = pairs.map (fun pr => (pr.2, pr.1)) := buildMapping_eq hnd
  have hkeys : (buildMapping pairs).map Prod.fst = pairs.map Prod.snd := by
    rw [hM, List.map_map]
    rfl
  have hlook : ∀ pr ∈ pairs, lookupAssoc (buildMapping pairs) pr.2 = some pr.1 := by
    intro pr hpr
    rw [hM]
    exact lookupAssoc_swap pairs pr.1 pr.2 hnd hpr
  unfold deanonymize deanonOrder
  rw [hkeys]
  have hsym : List.Pairwise
      (fun a b : Str × Str => (∀ c ∈ a.2, c ∉ b.2) ∧ (∀ c ∈ b.2, c ∉ a.2)) pairs :=
    List.Pairwise.imp (fun hab => ⟨hab, not_mem_swap hab⟩) h2
  have hperm : List.Perm (sortByLenDesc (pairs.map Prod.snd))
      ((pairs.map Prod.snd).reverse) :=
    (sortByLenDesc_perm _).trans (List.reverse_perm (pairs.map Prod.snd)).symm
  have hcomm : ∀ x ∈ sortByLenDesc (pairs.map Prod.snd),
      ∀ y ∈ sortByLenDesc (pairs.map Prod.snd), ∀ t : Str,
      (fun t p =>
        match lookupAssoc (buildMapping pairs) p with
        | some original => rep t p original
        | none => t)
        ((fun t p =>
          match lookupAssoc (buildMapping pairs) p with
          | some original => rep t p original
          | none => t) t x) y =
      (fun t p =>
        match lookupAssoc (buildMapping pairs) p with
        | some original => rep t p original
        | none => t)
        ((fun t p =>
          match lookupAssoc (buildMapping pairs) p with
          | some original => rep t p original
          | none => t) t y) x := by
    intro x hx y hy t
    by_cases hxy : x = y
    · rw [hxy]
    · have hxm : x ∈ pairs.map Prod.snd := (sortByLenDesc_perm _).subset hx
      have hym : y ∈ pairs.map Prod.snd := (sortByLenDesc_perm _).subset hy
      rcases List.mem_map.mp hxm with ⟨prx, hprx, rfl⟩
      rcases List.mem_map.mp hym with ⟨pry, hpry, rfl⟩
      have hpr_ne : prx ≠ pry := fun he => hxy (congrArg Prod.snd he)
      have hdisj := (List.Pairwise.forall
        (fun a b hab => ⟨hab.2, hab.1⟩) hsym) hprx hpry hpr_ne
      rcases h1 prx hprx with ⟨hv1, hp1, hc1⟩
      rcases h1 pry hpry with ⟨hv2, hp2, hc2⟩
      simp only
      rw [hlook prx hprx, hlook pry hpry]
      have db1 : ∀ c ∈ prx.1, c ∉ pry.2 := by
        intro c hc hmem
        exact (hc2 c hmem) (h3 prx hprx c hc)
      have db2 : ∀ c ∈ pry.1, c ∉ prx.2 := by
        intro c hc hmem
        exact (hc1 c hmem) (h3 pry hpry c hc)
      exact rep_comm hp1 hp2 hv1 hv2 hdisj.1 db1 db2 t
  rw [List.Perm.foldl_eq' hperm hcomm]
  rw [← List.map_reverse]
  rw [foldl_lookup_to_pairs (buildMapping pairs) pairs.reverse _
    (fun q hq => hlook q (List.mem_reverse.mp hq))]
  exact applyReplacements_undo pairs text h1 h2

/-- Later replacements never re-create an occurrence of a pattern whose
symbols are foreign to every later replacement string. -/
theorem preserve_no_occ :
    ∀ (l : List (Str × Str)) (s w : Str), w ≠ [] →
      (∀ pr ∈ l, pr.1 ≠ [] ∧ pr.2 ≠ [] ∧ ∀ c ∈ w, c ∉ pr.2) →
      hasSub s w = false → hasSub (applyReplacements s l) w = false := by
  intro l
  induction l with
  | nil => intro s w _ _ h; exact h
  | cons q rest ih =>
    intro s w hw hq h
    have hstep : applyReplacements s (q :: rest) = applyReplacements (rep s q.1 q.2) rest := rfl
    rw [hstep]
    rcases hq q (List.mem_cons_self q rest) with ⟨ha, hb, hd⟩
    have hnew : hasSub (rep s q.1 q.2) w = false := by
      cases hcase : hasSub (rep s q.1 q.2) w with
      | false => rfl
      | true =>
        have h2 := occ_back ha hb hw hd s hcase
        rw [h] at h2
        exact Bool.noConfusion h2
    exact ih _ w hw (fun p hp => hq p (List.mem_cons_of_mem q hp)) hnew

/-- Core of the amended no-leakage property. -/
theorem no_leak_core (pairs : List (Str × Str)) (text : Str)
    (h1 : ∀ pr ∈ pairs, pr.1 ≠ [] ∧ pr.2 ≠ [] ∧ ∀ c ∈ pr.2, c ∉ text)
    (h3 : ∀ pr ∈ pairs, ∀ c ∈ pr.1, c ∈ text) :
    ∀ pr ∈ pairs, hasSub (applyReplacements text pairs) pr.1 = false := by
  intro pr hpr
  obtain ⟨l₁, l₂, rfl⟩ := List.append_of_mem hpr
  have hsplit : applyReplacements text (l₁ ++ pr :: l₂) =
      applyReplacements (rep (applyReplacements text l₁) pr.1 pr.2) l₂ := by
    unfold applyReplacements
    rw [List.foldl_append]
    rfl
  rw [hsplit]
  have hmid : pr ∈ l₁ ++ pr :: l₂ :=
    List.mem_append_right l₁ (List.mem_cons_self pr l₂)
  rcases h1 pr hmid with ⟨hv, hp, hc⟩
  have hd : ∀ c ∈ pr.2, c ∉ pr.1 := by
    intro c hc2 hmem
    exact (hc c hc2) (h3 pr hmid c hmem)
  have hbase : hasSub (rep (applyReplacements text l₁) pr.1 pr.2) pr.1 = false :=
    no_occ hv hp hd _
  apply preserve_no_occ l₂ _ pr.1 hv ?hyps hbase
  case hyps =>
    intro q hq
    have hqm : q ∈ l₁ ++ pr :: l₂ :=
      List.mem_append_right l₁ (List.mem_cons_of_mem pr hq)
    rcases h1 q hqm with ⟨hv', hp', hc'⟩
    refine ⟨hv', hp', ?_⟩
    intro c hcw hmem
    exact (hc' c hmem) (h3 pr hmid c hcw)

/-- Replacements of patterns and replacement strings foreign to `w` preserve
the number of occurrences of `w`. -/
theorem preserve_count :
    ∀ (l : List (Str × Str)) (s w : Str), w ≠ [] →
      (∀ pr ∈ l, pr.1 ≠ [] ∧ pr.2 ≠ [] ∧ (∀ c ∈ w, c ∉ pr.1) ∧ (∀ c ∈ w, c ∉ pr.2)) →
      countOcc (applyReplacements s l) w = countOcc s w := by
  intro l
  induction l with
  | nil => intro s w _ _; rfl
  | cons q rest ih =>
    intro s w hw hq
    have hstep : applyReplacements s (q :: rest) = applyReplacements (rep s q.1 q.2) rest := rfl
    rw [hstep]
    rcases hq q (List.mem_cons_self q rest) with ⟨ha, hb, hdp, hdr⟩
    rw [ih _ w hw (fun p hp => hq p (List.mem_cons_of_mem q hp))]
    exact cnt_preserve ha hb hw hdp hdr s

/-- Core of the amended dedup property: the placeholder of `pr` occurs in the
anonymized text exactly as often as the value of `pr` occurred in the text. -/
theorem dedup_count_core (pairs : List (Str × Str)) (text : Str)
    (h1 : ∀ pr ∈ pairs, pr.1 ≠ [] ∧ pr.2 ≠ [] ∧ ∀ c ∈ pr.2, c ∉ text)
    (h2 : List.Pairwise (fun a b => ∀ c ∈ a.2, c ∉ b.2) pairs)
    (h3 : ∀ pr ∈ pairs, ∀ c ∈ pr.1, c ∈ text)
    (h4 : ValuesDisjoint pairs) :
    ∀ pr ∈ pairs, countOcc (applyReplacements text pairs) pr.2 = countOcc text pr.1 := by
  intro pr hpr
  obtain ⟨l₁, l₂, heq⟩ := List.append_of_mem hpr
  subst heq
  have hmid : pr ∈ l₁ ++ pr :: l₂ :=
    List.mem_append_right l₁ (List.mem_cons_self pr l₂)
  rcases h1 pr hmid with ⟨hv, hp, hc⟩
  have hsplit : applyReplacements text (l₁ ++ pr :: l₂) =
      applyReplacements (rep (applyReplacements text l₁) pr.1 pr.2) l₂ := by
    unfold applyReplacements
    rw [List.foldl_append]
    rfl
  rw [hsplit]
  rcases List.pairwise_append.mp h2 with ⟨-, h2r, h2cross⟩
  rcases List.pairwise_append.mp h4 with ⟨-, h4r, h4cross⟩
  have stepC : countOcc (applyReplacements
      (rep (applyReplacements text l₁) pr.1 pr.2) l₂) pr.2 =
      countOcc (rep (applyReplacements text l₁) pr.1 pr.2) pr.2 := by
    apply preserve_count l₂ _ pr.2 hp
    intro q hq
    have hqm : q ∈ l₁ ++ pr :: l₂ :=
      List.mem_append_right l₁ (List.mem_cons_of_mem pr hq)
    rcases h1 q hqm with ⟨hv', hp', hc'⟩
    refine ⟨hv', hp', ?_, ?_⟩
    · intro c hcw hmem
      exact (hc c hcw) (h3 q hqm c hmem)
    · intro c hcw hmem
      exact (List.pairwise_cons.mp h2r).1 q hq c hcw hmem
  rw [stepC]
  have hchars : ∀ c ∈ pr.2, c ∉ applyReplacements text l₁ := by
    intro c hcw hmem
    rcases mem_applyReplacements l₁ text c
      (fun q hq => (h1 q (List.mem_append_left _ hq)).1) hmem with hmt | ⟨q, hq, hcq⟩
    · exact (hc c hcw) hmt
    · exact (h2cross q hq pr (List.mem_cons_self pr l₂) c hcq) hcw
  rw [cnt_transfer hv hp _ hchars]
  apply preserve_count l₁ _ pr.1 hv
  intro q hq
  have hqm : q ∈ l₁ ++ pr :: l₂ := List.mem_append_left _ hq
  rcases h1 q hqm with ⟨hv', hp', hc'⟩
  refine ⟨hv', hp', ?_, ?_⟩
  · intro c hcw hmem
    exact (h4cross q hq pr (List.mem_cons_self pr l₂)).1 c hmem hcw
  · intro c hcw hmem
    exact (hc' c hmem) (h3 pr hmid c hcw)

theorem filter_key_len :
    ∀ (l : List (Str × Str)) (v p : Str), (l.map Prod.fst).Nodup → (v, p) ∈ l →
      (l.filter (fun q => q.1 == v)).length = 1 := by
  intro l
  induction l with
  | nil => intro v p _ h; exact absurd h (List.not_mem_nil _)
  | cons q rest ih =>
    intro v p hnd hmem
    simp only [List.map_cons, List.nodup_cons] at hnd
    by_cases he : q.1 = v
    · have hrestnil : rest.filter (fun q => q.1 == v) = [] := by
        rw [List.filter_eq_nil_iff]
        intro x hx hbe
        apply hnd.1
        rw [he]
        have : x.1 = v := by simpa using hbe
        rw [← this]
        exact List.mem_map_of_mem Prod.fst hx
      rw [List.filter_cons_of_pos (by simpa using he), hrestnil]
      rfl
    · rcases List.mem_cons.mp hmem with h1 | h2
      · exact absurd (congrArg Prod.fst h1).symm he
      · rw [List.filter_cons_of_neg (by simpa using he)]
        exact ih v p hnd.2 h2

/-! ### Run-level glue lemmas -/

theorem fresh_placeholders_nodup {text : Str} {pairs : List (Str × Str)}
    (hF : FreshPairs text pairs) : (pairs.map Prod.snd).Nodup := by
  rcases hF with ⟨h1, h2⟩
  have hne : List.Pairwise (fun a b : Str × Str => a.2 ≠ b.2) pairs := by
    apply List.Pairwise.imp_of_mem ?_ h2
    intro a b ha hb hab heq
    rcases h1 a ha with ⟨-, hne, -⟩
    cases hcons : a.2 with
    | nil => exact hne hcons
    | cons c cs =>
      apply hab c (by rw [hcons]; exact List.mem_cons_self c cs)
      rw [← heq, hcons]
      exact List.mem_cons_self c cs
  exact List.pairwise_map.mpr hne

theorem run_inversion {R : RegexOracle} {patterns : List EntityType}
    {cfg : AnonymizerConfig} {O : UuidOracle} {text : Str}
    {custom : Option (List (EntityType × List Str))} {st st' : GenState}
    {res : AnonymizationResult}
    (hrun : anonymize_with_custom R patterns cfg O text custom st =
      some (Except.ok res, st')) :
    (text = [] ∧ res = ⟨[], [], []⟩ ∧ st' = st) ∨
    (text ≠ [] ∧ ∃ ents, detect R patterns text custom = some ents ∧
      res = { anonymized_text := applyReplacements text (buildUnique cfg O ents [] st).1
              mapping := buildMapping (buildUnique cfg O ents [] st).1
              entities := ents } ∧
      st' = (buildUnique cfg O ents [] st).2) := by
  unfold anonymize_with_custom at hrun
  by_cases ht : text = []
  · rw [if_pos ht] at hrun
    simp only [Option.some.injEq, Prod.mk.injEq, Except.ok.injEq] at hrun
    exact Or.inl ⟨ht, hrun.1.symm, hrun.2.symm⟩
  · rw [if_neg ht] at hrun
    cases hdet : detect R patterns text custom with
    | none => rw [hdet] at hrun; exact absurd hrun (by simp)
    | some ents =>
      rw [hdet] at hrun
      simp only [Option.some.injEq, Prod.mk.injEq, Except.ok.injEq] at hrun
      exact Or.inr ⟨ht, ents, rfl, hrun.1.symm, hrun.2.symm⟩

theorem detect_shape {R : RegexOracle} {patterns : List EntityType} {text : Str}
    {custom : Option (List (EntityType × List Str))} {ents : List Entity}
    (h : detect R patterns text custom = some ents) :
    ∃ cands, ents = resolveOverlaps (sortByStart cands) := by
  unfold detect at h
  cases custom with
  | none =>
    simp only [Option.some.injEq] at h
    exact ⟨regexEntities R patterns text, h.symm⟩
  | some cm =>
    have h' : (match customEntitiesScan text cm with
      | none => none
      | some ce =>
        some (resolveOverlaps (sortByStart (regexEntities R patterns text ++ ce)))) =
        some ents := h
    cases hc : customEntitiesScan text cm with
    | none => rw [hc] at h'; exact absurd h' (by simp)
    | some ce =>
      rw [hc] at h'
      simp only [Option.some.injEq] at h'
      exact ⟨regexEntities R patterns text ++ ce, h'.symm⟩

theorem foldl_deanon_id (mapping : List (Str × Str)) :
    ∀ (ks : List Str) (t : Str), (∀ k ∈ ks, hasSub t k = false) →
      List.foldl (fun t p =>
        match lookupAssoc mapping p with
        | some original => rep t p original
        | none => t) t ks = t := by
  intro ks
  induction ks with
  | nil => intro t _; rfl
  | cons k ks' ih =>
    intro t h
    have hk := h k (List.mem_cons_self k ks')
    have hstep : (match lookupAssoc mapping k with
        | some original => rep t k original
        | none => t) = t := by
      cases lookupAssoc mapping k with
      | none => rfl
      | some orig => exact rep_id orig hk
    simp only [List.foldl_cons, hstep]
    exact ih t (fun q hq => h q (List.mem_cons_of_mem k hq))

/-! ### Claim theorems -/

/-- C3: the overlap resolver stable-sorts the candidates by start position
and keeps a candidate iff its start is at or after the end of the last kept
candidate; consequently the entities list returned by anonymize is pairwise
non-overlapping (in the strong form `end ≤ next start`, so no two `[start,end)`
intervals intersect) and ordered by start ascending. -/
theorem overlap_resolution_sound
    (R : RegexOracle) (patterns : List EntityType) (cfg : AnonymizerConfig)
    (O : UuidOracle) (text : Str) (custom : Option (List (EntityType × List Str)))
    (st st' : GenState) (res : AnonymizationResult)
    (hrun : anonymize_with_custom R patterns cfg O text custom st =
      some (Except.ok res, st')) :
    List.Pairwise (fun a b => a.endPos ≤ b.start) res.entities ∧
    List.Pairwise (fun a b => a.start ≤ b.start) res.entities := by
  rcases run_inversion hrun with ⟨-, rfl, -⟩ | ⟨-, ents, hdet, rfl, -⟩
  · exact ⟨List.Pairwise.nil, List.Pairwise.nil⟩
  · obtain ⟨cands, hc⟩ := detect_shape hdet
    show List.Pairwise _ ents ∧ List.Pairwise _ ents
    rw [hc]
    exact resolveOverlaps_pairwise cands

/-- Witness for C3 at a concrete run with two detected entities. -/
theorem overlap_resolution_sound_witness :
    List.Pairwise (fun a b : Entity => a.endPos ≤ b.start)
      [⟨EntityType.Custom ("k".data), ("a".data), 0, 1⟩,
       ⟨EntityType.Custom ("k".data), ("a".data), 2, 3⟩] ∧
    List.Pairwise (fun a b : Entity => a.start ≤ b.start)
      [⟨EntityType.Custom ("k".data), ("a".data), 0, 1⟩,
       ⟨EntityType.Custom ("k".data), ("a".data), 2, 3⟩] :=
  overlap_resolution_sound R0 [] cfgShort O0 ("a a".data)
    (some [(EntityType.Custom ("k".data), [("a".data)])]) ⟨0, 0⟩ ⟨1, 0⟩
    { anonymized_text := ("K_1 K_1".data)
      mapping := [(("K_1".data), ("a".data))]
      entities := [⟨EntityType.Custom ("k".data), ("a".data), 0, 1⟩,
        ⟨EntityType.Custom ("k".data), ("a".data), 2, 3⟩] }
    (by decide)

/-- C6: assuming the regex-engine contract, every entity returned by
anonymize satisfies `0 ≤ start < end ≤ len text` and `text[start:end] = value`
(offsets in symbols, end exclusive). -/
theorem position_validity
    (R : RegexOracle) (patterns : List EntityType) (cfg : AnonymizerConfig)
    (O : UuidOracle) (text : Str) (custom : Option (List (EntityType × List Str)))
    (st st' : GenState) (res : AnonymizationResult)
    (hR : ValidRegex R)
    (hrun : anonymize_with_custom R patterns cfg O text custom st =
      some (Except.ok res, st')) :
    ∀ e ∈ res.entities, e.start < e.endPos ∧ e.endPos ≤ text.length ∧
      (text.drop e.start).take (e.endPos - e.start) = e.value := by
  rcases run_inversion hrun with ⟨-, rfl, -⟩ | ⟨-, ents, hdet, rfl, -⟩
  · intro e he
    exact absurd he (List.not_mem_nil e)
  · intro e he
    exact detect_valid hR hdet e he

/-- Witness for C6 at a concrete run and entity. -/
theorem position_validity_witness :
    0 < 1 ∧ 1 ≤ ("a a".data).length ∧
      (((("a a".data) : Str).drop 0).take (1 - 0) = ("a".data)) :=
  position_validity R0 [] cfgShort O0 ("a a".data)
    (some [(EntityType.Custom ("k".data), [("a".data)])]) ⟨0, 0⟩ ⟨1, 0⟩
    { anonymized_text := ("K_1 K_1".data)
      mapping := [(("K_1".data), ("a".data))]
      entities := [⟨EntityType.Custom ("k".data), ("a".data), 0, 1⟩,
        ⟨EntityType.Custom ("k".data), ("a".data), 2, 3⟩] }
    (fun et text sp h => absurd h (List.not_mem_nil sp)) (by decide)
    ⟨EntityType.Custom ("k".data), ("a".data), 0, 1⟩ (by decide)

/-- C4 counterexample: with two mapped placeholders of equal length the
processing order of deanonymize is not strictly decreasing in key length,
refuting the strictly-decreasing clause of the claim at a concrete mapping. -/
theorem deanonymize_order_not_strictly_decreasing :
    deanonOrder [(("AA".data), ("x".data)), (("BB".data), ("y".data))] =
      [("AA".data), ("BB".data)] ∧
    ¬ List.Chain' (fun a b : Str => b.length < a.length)
      [("AA".data), ("BB".data)] := by
  constructor
  · decide
  · intro h
    have := List.chain'_cons.mp h
    simp at this

/-- C4 (amended): deanonymize is total and processes exactly the mapped
placeholders, sorted by nonincreasing key length (longest first, ties in
mapping order); a single mapped placeholder is replaced at every leftmost
non-overlapping occurrence (`rep`); and a placeholder absent from the mapping
is never targeted: when no mapped key occurs in the text the text passes
through unchanged. -/
theorem deanonymize_amended (text : Str) (mapping : List (Str × Str)) :
    List.Pairwise (fun a b => b.length ≤ a.length) (deanonOrder mapping) ∧
    List.Perm (deanonOrder mapping) (mapping.map Prod.fst) ∧
    (∀ p v, deanonymize text [(p, v)] = rep text p v) ∧
    ((∀ k ∈ mapping.map Prod.fst, hasSub text k = false) →
      deanonymize text mapping = text) := by
  refine ⟨sortByLenDesc_sorted _, sortByLenDesc_perm _, ?_, ?_⟩
  · intro p v
    show List.foldl _ text (deanonOrder [(p, v)]) = rep text p v
    have horder : deanonOrder [(p, v)] = [p] := rfl
    rw [horder]
    simp only [List.foldl_cons, List.foldl_nil]
    rw [show lookupAssoc [(p, v)] p = (if p = p then some v else none) from rfl,
      if_pos rfl]
  · intro h
    unfold deanonymize
    apply foldl_deanon_id
    intro k hk
    exact h k ((sortByLenDesc_perm _).subset hk)

/-- Witness for C4 at a concrete text and mapping: an unmapped text passes
through deanonymize unchanged. -/
theorem deanonymize_amended_witness :
    deanonymize ("zz".data) [(("AA".data), ("x".data))] = ("zz".data) :=
  (deanonymize_amended ("zz".data) [(("AA".data), ("x".data))]).2.2.2 (by decide)

/-- C7: failing input for the entity cap.  `max_entities` is set to 1, its
configured value is visible on the engine, yet anonymize returns 2 entities:
the engine never reads the field (contradicting the config documentation
"Maximum number of entities to detect (0 = unlimited)"). -/
theorem max_entities_ignored :
    ({ AnonymizerConfig.default with max_entities := 1 } : AnonymizerConfig).max_entities
      = 1 ∧
    (anonymize_with_custom R0 []
      { AnonymizerConfig.default with max_entities := 1 } O0 ("a a".data)
      (some [(EntityType.Custom ("k".data), [("a".data)])]) ⟨0, 0⟩).map
      (fun pr => (entities_of pr.1).length) = some 2 := by decide

/-- C8 counterexample: two calls on the same engine configuration with the
same text and custom map, the second starting from the state the first call
left behind (counter 1), produce different mappings (`K_1` vs `K_2`): the
outcome is not a pure function of the call inputs alone. -/
theorem anonymize_not_deterministic_across_calls :
    (anonymize_with_custom R0 [] cfgShort O0 ("a".data)
      (some [(EntityType.Custom ("k".data), [("a".data)])]) ⟨0, 0⟩).map
      (fun pr => (mapping_of pr.1, pr.2)) =
      some ([(("K_1".data), ("a".data))], ⟨1, 0⟩) ∧
    (anonymize_with_custom R0 [] cfgShort O0 ("a".data)
      (some [(EntityType.Custom ("k".data), [("a".data)])]) ⟨1, 0⟩).map
      (fun pr => (mapping_of pr.1, pr.2)) =
      some ([(("K_2".data), ("a".data))], ⟨2, 0⟩) ∧
    ([(("K_1".data), ("a".data))] : List (Str × Str)) ≠
      [(("K_2".data), ("a".data))] := by decide

/-- C8 (amended): anonymize is a pure function of its inputs, the engine
counter state and the random draws; in particular the detected entities are
identical across calls, independent of the engine state and of the UUID
randomness. -/
theorem anonymize_entities_deterministic
    (R : RegexOracle) (patterns : List EntityType) (cfg : AnonymizerConfig)
    (O O' : UuidOracle) (text : Str)
    (custom : Option (List (EntityType × List Str))) (st st' : GenState) :
    (anonymize_with_custom R patterns cfg O text custom st).map
      (fun pr => entities_of pr.1) =
    (anonymize_with_custom R patterns cfg O' text custom st').map
      (fun pr => entities_of pr.1) := by
  unfold anonymize_with_custom
  by_cases ht : text = []
  · rw [if_pos ht, if_pos ht]
    rfl
  · rw [if_neg ht, if_neg ht]
    cases hdet : detect R patterns text custom with
    | none => rfl
    | some ents => rfl

/-- C9: under the Short placeholder format, placeholder numbering comes from
the engine-instance counter: starting from state `st`, the j-th newly
allocated placeholder (one allocation per distinct detected value, not per
occurrence) is `{KIND}_{st.counter + j + 1}` — so numbering is strictly
increasing, the first call on a fresh engine (counter 0, set by
`with_config`) starts at 1, and the returned state carries
`st.counter + (number of distinct values)`, never reset, so later calls on
the same instance continue the sequence. -/
theorem short_counter_spec (cfg : AnonymizerConfig) (O : UuidOracle)
    (hfmt : cfg.placeholder_format = PlaceholderFormat.Short)
    (ents : List Entity) (st : GenState) :
    (buildUnique cfg O ents [] st).2.counter =
      st.counter + (buildUnique cfg O ents [] st).1.length ∧
    (buildUnique cfg O ents [] st).2.draws = st.draws ∧
    (∀ j, j < (buildUnique cfg O ents [] st).1.length → ∃ et pr,
      (buildUnique cfg O ents [] st).1[j]? = some pr ∧
      pr.2 = upperStr (type_pfx et) ++ '_' :: Nat.toDigits 10 (st.counter + j + 1)) ∧
    (∀ ets ps cfg2 st0, with_config ets cfg = Except.ok (ps, cfg2, st0) →
      st0.counter = 0) := by
  rcases buildUnique_short O hfmt ents [] st with ⟨new, h1, h2, h3, h4⟩
  rw [List.nil_append] at h1
  refine ⟨by rw [h2, h1], h3, ?_, ?_⟩
  · intro j hj
    have hj' : j < new.length := by rw [← h1]; exact hj
    rcases h4 j hj' with ⟨et, het⟩
    refine ⟨et, new.get ⟨j, hj'⟩, ?_, het⟩
    rw [h1, List.getElem?_eq_getElem hj']
    rfl
  · intro ets ps cfg2 st0 h
    unfold with_config at h
    cases hn : EntityDetector.new ets with
    | error e => rw [hn] at h; exact absurd h (by simp)
    | ok ps' =>
      rw [hn] at h
      simp only [Except.ok.injEq, Prod.mk.injEq] at h
      rw [← h.2.2]

/-- Witness for C9 at a concrete Short-format allocation. -/
theorem short_counter_spec_witness :
    (buildUnique cfgShort O0
      [⟨EntityType.Custom ("k".data), ("a".data), 0, 1⟩] [] ⟨0, 0⟩).2.counter =
      0 + (buildUnique cfgShort O0
        [⟨EntityType.Custom ("k".data), ("a".data), 0, 1⟩] [] ⟨0, 0⟩).1.length ∧
    (buildUnique cfgShort O0
      [⟨EntityType.Custom ("k".data), ("a".data), 0, 1⟩] [] ⟨0, 0⟩).2.draws = 0 :=
  ⟨(short_counter_spec cfgShort O0 rfl
      [⟨EntityType.Custom ("k".data), ("a".data), 0, 1⟩] ⟨0, 0⟩).1,
   (short_counter_spec cfgShort O0 rfl
      [⟨EntityType.Custom ("k".data), ("a".data), 0, 1⟩] ⟨0, 0⟩).2.1⟩

/-- C10 counterexample: on a successfully constructed engine (no built-in
kinds), a nonempty text together with a custom map containing an empty value
makes the custom scan loop run its slice base past the end of the text — a
panic, modelled as `none`: the call returns no `Ok` outcome. -/
theorem anonymize_panics_on_empty_custom_value :
    anonymize_with_custom R0 [] AnonymizerConfig.default O0 ("a".data)
      (some [(EntityType.Custom ("k".data), [([] : Str)])]) ⟨0, 0⟩ = none ∧
    with_config [] AnonymizerConfig.default =
      Except.ok ([], AnonymizerConfig.default, ⟨0, 0⟩) := by decide

theorem customScanGo_some {text value : Str} (hv : value ≠ []) :
    ∀ (fuel start : Nat), start ≤ text.length → text.length + 1 - start ≤ fuel →
      ∃ spans, customScanGo text value fuel start = some spans := by
  intro fuel
  induction fuel with
  | zero =>
    intro start h1 h2
    omega
  | succ f ih =>
    intro start h1 h2
    unfold customScanGo
    rw [if_neg (by omega)]
    cases hf : strFind (text.drop start) value with
    | none => exact ⟨[], rfl⟩
    | some pos =>
      rcases strFind_spec _ _ _ hf with ⟨-, hlen⟩
      have hv1 : 1 ≤ value.length := by
        cases value with
        | nil => exact absurd rfl hv
        | cons a as => simp
      have hdlen : pos + value.length ≤ text.length - start := by
        simpa using hlen
      rcases ih (start + pos + 1) (by omega) (by omega) with ⟨spans', hs⟩
      refine ⟨(start + pos, start + pos + value.length) :: spans', ?_⟩
      show Option.map (fun rest => (start + pos, start + pos + value.length) :: rest)
        (customScanGo text value f (start + pos + 1)) = _
      rw [hs]
      rfl

theorem customValuesScan_some (text : Str) (et : EntityType) :
    ∀ (vs : List Str), (∀ v ∈ vs, v ≠ []) →
      ∃ ents, customValuesScan text et vs = some ents := by
  intro vs
  induction vs with
  | nil => intro _; exact ⟨[], rfl⟩
  | cons v vs' ih =>
    intro h
    rcases @customScanGo_some text v (h v (List.mem_cons_self v vs'))
      (text.length + 2) 0 (by omega) (by omega) with ⟨spans, hs⟩
    rcases ih (fun q hq => h q (List.mem_cons_of_mem v hq)) with ⟨rest, hr⟩
    refine ⟨spans.map (fun sp =>
      { entity_type := et, value := v, start := sp.1, endPos := sp.2 : Entity }) ++ rest, ?_⟩
    unfold customValuesScan
    rw [show customScan text v = customScanGo text v (text.length + 2) 0 from rfl]
    rw [hs, hr]

theorem customEntitiesScan_some (text : Str) :
    ∀ (cm : List (EntityType × List Str)), (∀ pr ∈ cm, ∀ v ∈ pr.2, v ≠ []) →
      ∃ ents, customEntitiesScan text cm = some ents := by
  intro cm
  induction cm with
  | nil => intro _; exact ⟨[], rfl⟩
  | cons pr rest ih =>
    intro h
    rcases customValuesScan_some text pr.1 pr.2
      (fun v hv => h pr (List.mem_cons_self pr rest) v hv) with ⟨l1, h1⟩
    rcases ih (fun q hq v hv => h q (List.mem_cons_of_mem pr hq) v hv) with ⟨l2, h2⟩
    refine ⟨l1 ++ l2, ?_⟩
    show (match customValuesScan text pr.1 pr.2, customEntitiesScan text rest with
      | some a, some b => some (a ++ b)
      | _, _ => none) = some (l1 ++ l2)
    rw [h1, h2]

theorem detect_some (R : RegexOracle) (patterns : List EntityType) (text : Str)
    (custom : Option (List (EntityType × List Str)))
    (h : ∀ cm, custom = some cm → ∀ pr ∈ cm, ∀ v ∈ pr.2, v ≠ []) :
    ∃ ents, detect R patterns text custom = some ents := by
  cases custom with
  | none => exact ⟨_, rfl⟩
  | some cm =>
    rcases customEntitiesScan_some text cm (h cm rfl) with ⟨ce, hce⟩
    refine ⟨resolveOverlaps (sortByStart (regexEntities R patterns text ++ ce)), ?_⟩
    show (match customEntitiesScan text cm with
      | none => none
      | some ce =>
        some (resolveOverlaps (sortByStart (regexEntities R patterns text ++ ce)))) = _
    rw [hce]

/-- C10 (amended): the error branch of anonymize is unreachable — no call
returns `Err` — and whenever every supplied custom value is nonempty (in
particular whenever no custom map is given) the call returns an `Ok`
outcome for every text.  What the original claim misses is the panic: a
nonempty text with an empty custom value crashes the scan loop instead of
returning. -/
theorem anonymize_ok_amended (R : RegexOracle) (patterns : List EntityType)
    (cfg : AnonymizerConfig) (O : UuidOracle) (text : Str)
    (custom : Option (List (EntityType × List Str))) (st : GenState) :
    (∀ e st2, anonymize_with_custom R patterns cfg O text custom st ≠
      some (Except.error e, st2)) ∧
    ((∀ cm, custom = some cm → ∀ pr ∈ cm, ∀ v ∈ pr.2, v ≠ []) →
      (anonymize_with_custom R patterns cfg O text custom st).isSome = true) := by
  constructor
  · intro e st2 hcontra
    unfold anonymize_with_custom at hcontra
    by_cases ht : text = []
    · rw [if_pos ht] at hcontra
      simp at hcontra
    · rw [if_neg ht] at hcontra
      cases hdet : detect R patterns text custom with
      | none => rw [hdet] at hcontra; exact absurd hcontra (by simp)
      | some ents => rw [hdet] at hcontra; simp at hcontra
  · intro h
    unfold anonymize_with_custom
    by_cases ht : text = []
    · rw [if_pos ht]
      rfl
    · rw [if_neg ht]
      rcases detect_some R patterns text custom h with ⟨ents, hdet⟩
      rw [hdet]
      rfl

/-- Witness for C10 at a concrete call with a nonempty custom value. -/
theorem anonymize_ok_amended_witness :
    (anonymize_with_custom R0 [] cfgShort O0 ("a".data)
      (some [(EntityType.Custom ("k".data), [("a".data)])]) ⟨0, 0⟩).isSome = true :=
  (anonymize_ok_amended R0 [] cfgShort O0 ("a".data)
    (some [(EntityType.Custom ("k".data), [("a".data)])]) ⟨0, 0⟩).2 (by decide)

/-- C1 counterexample: the input text contains the very string the engine
will allocate as placeholder (`K_1`); after anonymizing the single detected
value `a`, deanonymize rewrites the pre-existing `K_1` as well and does not
restore the original text. -/
theorem roundtrip_fails_on_placeholder_collision :
    (anonymize_with_custom R0 [] cfgShort O0 ("K_1a".data)
      (some [(EntityType.Custom ("k".data), [("a".data)])]) ⟨0, 0⟩).map
      (fun pr =>
        match pr.1 with
        | Except.ok r => decide (deanonymize r.anonymized_text r.mapping = ("K_1a".data))
        | Except.error _ => true) = some false := by decide

/-- C1 (amended): the round-trip
`deanonymize (anonymize text).anonymized_text (anonymize text).mapping = text`
holds whenever the allocated placeholders are fresh for the run: every
distinct value and placeholder is nonempty, no placeholder shares a symbol
with the input text, and distinct placeholders share no symbol. -/
theorem roundtrip_amended
    (R : RegexOracle) (patterns : List EntityType) (cfg : AnonymizerConfig)
    (O : UuidOracle) (text : Str) (custom : Option (List (EntityType × List Str)))
    (st st' st2 : GenState) (ents : List Entity) (pairs : List (Str × Str))
    (res : AnonymizationResult)
    (hR : ValidRegex R)
    (hd : detect R patterns text custom = some ents)
    (hb : buildUnique cfg O ents [] st = (pairs, st2))
    (hF : FreshPairs text pairs)
    (hrun : anonymize_with_custom R patterns cfg O text custom st =
      some (Except.ok res, st')) :
    deanonymize res.anonymized_text res.mapping = text := by
  rcases run_inversion hrun with ⟨rfl, rfl, -⟩ | ⟨-, ents', hdet', rfl, -⟩
  · rfl
  · have hents : ents' = ents := by
      rw [hd] at hdet'
      exact (Option.some.inj hdet').symm
    subst hents
    have hp1 : (buildUnique cfg O ents' [] st).1 = pairs := by rw [hb]
    show deanonymize (applyReplacements text (buildUnique cfg O ents' [] st).1)
      (buildMapping (buildUnique cfg O ents' [] st).1) = text
    rw [hp1]
    rcases hF with ⟨h1, h2⟩
    apply deanonymize_undoes pairs text h1 h2 ?h3 (fresh_placeholders_nodup ⟨h1, h2⟩)
    case h3 =>
      intro pr hpr c hc
      rcases buildUnique_src cfg O ents' [] st pr (by rw [hp1]; exact hpr)
        with hacc | ⟨e, he, hv⟩
      · exact absurd hacc (List.not_mem_nil pr)
      · exact detect_value_chars hR hd e he c (hv ▸ hc)

/-- Witness for C1 at a concrete run with a repeated value and a fresh
placeholder. -/
theorem roundtrip_amended_witness :
    deanonymize ("K_1 K_1".data) [(("K_1".data), ("ab".data))] = ("ab ab".data) :=
  roundtrip_amended R0 [] cfgShort O0 ("ab ab".data)
    (some [(EntityType.Custom ("k".data), [("ab".data)])]) ⟨0, 0⟩ ⟨1, 0⟩ ⟨1, 0⟩
    [⟨EntityType.Custom ("k".data), ("ab".data), 0, 2⟩,
     ⟨EntityType.Custom ("k".data), ("ab".data), 3, 5⟩]
    [(("ab".data), ("K_1".data))]
    { anonymized_text := ("K_1 K_1".data)
      mapping := [(("K_1".data), ("ab".data))]
      entities := [⟨EntityType.Custom ("k".data), ("ab".data), 0, 2⟩,
        ⟨EntityType.Custom ("k".data), ("ab".data), 3, 5⟩] }
    (fun et text sp h => absurd h (List.not_mem_nil sp))
    (by decide) (by decide) (by decide) (by decide)

/-- C2 counterexample: the detected value `1a` is not a substring of the
allocated placeholder `K_1`, yet replacing `1a` by `K_1` in the text `1aa`
yields `K_1a`, which contains `1a` again — the anonymized text leaks the
detected value. -/
theorem no_leakage_fails :
    (anonymize_with_custom R0 [] cfgShort O0 ("1aa".data)
      (some [(EntityType.Custom ("k".data), [("1a".data)])]) ⟨0, 0⟩).map
      (fun pr =>
        match pr.1 with
        | Except.ok r => (r.anonymized_text, r.entities.map Entity.value,
            r.mapping.map Prod.fst, hasSub r.anonymized_text ("1a".data))
        | Except.error _ => ([], [], [], false)) =
      some (("K_1a".data), [("1a".data)], [("K_1".data)], true) ∧
    hasSub ("K_1".data) ("1a".data) = false := by decide

/-- C2 (amended): no detected value occurs as a substring of the anonymized
text, provided the allocated placeholders are fresh for the run (nonempty,
sharing no symbol with the input text — hence none with any detected value —
and pairwise symbol-disjoint), values being nonempty. -/
theorem no_leakage_amended
    (R : RegexOracle) (patterns : List EntityType) (cfg : AnonymizerConfig)
    (O : UuidOracle) (text : Str) (custom : Option (List (EntityType × List Str)))
    (st st' st2 : GenState) (ents : List Entity) (pairs : List (Str × Str))
    (res : AnonymizationResult)
    (hR : ValidRegex R)
    (hd : detect R patterns text custom = some ents)
    (hb : buildUnique cfg O ents [] st = (pairs, st2))
    (hF : FreshPairs text pairs)
    (hrun : anonymize_with_custom R patterns cfg O text custom st =
      some (Except.ok res, st')) :
    ∀ e ∈ res.entities, hasSub res.anonymized_text e.value = false := by
  rcases run_inversion hrun with ⟨-, rfl, -⟩ | ⟨-, ents', hdet', rfl, -⟩
  · intro e he
    exact absurd he (List.not_mem_nil e)
  · have hents : ents' = ents := by
      rw [hd] at hdet'
      exact (Option.some.inj hdet').symm
    subst hents
    have hp1 : (buildUnique cfg O ents' [] st).1 = pairs := by rw [hb]
    intro e he
    show hasSub (applyReplacements text (buildUnique cfg O ents' [] st).1) e.value = false
    rw [hp1]
    obtain ⟨pr, hpr, hv⟩ := buildUnique_covers cfg O ents' [] st e he
    rw [hp1] at hpr
    rw [← hv]
    apply no_leak_core pairs text hF.1 ?h3 pr hpr
    case h3 =>
      intro q hq c hc
      rcases buildUnique_src cfg O ents' [] st q (by rw [hp1]; exact hq)
        with hacc | ⟨e2, he2, hv2⟩
      · exact absurd hacc (List.not_mem_nil q)
      · exact detect_value_chars hR hd e2 he2 c (hv2 ▸ hc)

/-- Witness for C2 at a concrete run. -/
theorem no_leakage_amended_witness :
    hasSub ("K_1 K_1".data) ("ab".data) = false :=
  no_leakage_amended R0 [] cfgShort O0 ("ab ab".data)
    (some [(EntityType.Custom ("k".data), [("ab".data)])]) ⟨0, 0⟩ ⟨1, 0⟩ ⟨1, 0⟩
    [⟨EntityType.Custom ("k".data), ("ab".data), 0, 2⟩,
     ⟨EntityType.Custom ("k".data), ("ab".data), 3, 5⟩]
    [(("ab".data), ("K_1".data))]
    { anonymized_text := ("K_1 K_1".data)
      mapping := [(("K_1".data), ("ab".data))]
      entities := [⟨EntityType.Custom ("k".data), ("ab".data), 0, 2⟩,
        ⟨EntityType.Custom ("k".data), ("ab".data), 3, 5⟩] }
    (fun et text sp h => absurd h (List.not_mem_nil sp))
    (by decide) (by decide) (by decide) (by decide)
    ⟨EntityType.Custom ("k".data), ("ab".data), 0, 2⟩ (by decide)

/-- C5 counterexample: the detected value `1a` occurs N = 2 times in the
text `K_1 1a1a` (leftmost non-overlapping occurrences), the mapping has
exactly one entry for it, but its placeholder `K_1` occurs 3 times in
`anonymized_text` (the pre-existing `K_1` of the input counts as well) —
not N identical occurrences. -/
theorem dedup_fails_on_collision :
    (anonymize_with_custom R0 [] cfgShort O0 ("K_1 1a1a".data)
      (some [(EntityType.Custom ("k".data), [("1a".data)])]) ⟨0, 0⟩).map
      (fun pr =>
        match pr.1 with
        | Except.ok r => (countOcc ("K_1 1a1a".data) ("1a".data),
            countOcc r.anonymized_text ("K_1".data),
            (r.mapping.filter (fun q => q.2 == ("1a".data))).length)
        | Except.error _ => (0, 0, 0)) = some (2, 3, 1) ∧ (2 : Nat) ≠ 3 := by decide

/-- C5 (amended): when the allocated placeholders are fresh for the run and
distinct detected values are pairwise symbol-disjoint, every distinct
detected value has exactly one mapping entry, and its placeholder occurs in
`anonymized_text` exactly N times, where N is the number of leftmost
non-overlapping occurrences of the value in the input text. -/
theorem dedup_amended
    (R : RegexOracle) (patterns : List EntityType) (cfg : AnonymizerConfig)
    (O : UuidOracle) (text : Str) (custom : Option (List (EntityType × List Str)))
    (st st' st2 : GenState) (ents : List Entity) (pairs : List (Str × Str))
    (res : AnonymizationResult)
    (hR : ValidRegex R)
    (ht : text ≠ [])
    (hd : detect R patterns text custom = some ents)
    (hb : buildUnique cfg O ents [] st = (pairs, st2))
    (hF : FreshPairs text pairs)
    (hV : ValuesDisjoint pairs)
    (hrun : anonymize_with_custom R patterns cfg O text custom st =
      some (Except.ok res, st'))
    (pr : Str × Str) (hpr : pr ∈ pairs) :
    (res.mapping.filter (fun q => q.2 == pr.1)).length = 1 ∧
    countOcc res.anonymized_text pr.2 = countOcc text pr.1 := by
  rcases run_inversion hrun with ⟨hteq, -, -⟩ | ⟨-, ents', hdet', rfl, -⟩
  · exact absurd hteq ht
  · have hents : ents' = ents := by
      rw [hd] at hdet'
      exact (Option.some.inj hdet').symm
    subst hents
    have hp1 : (buildUnique cfg O ents' [] st).1 = pairs := by rw [hb]
    have h3 : ∀ q ∈ pairs, ∀ c ∈ q.1, c ∈ text := by
      intro q hq c hc
      rcases buildUnique_src cfg O ents' [] st q (by rw [hp1]; exact hq)
        with hacc | ⟨e2, he2, hv2⟩
      · exact absurd hacc (List.not_mem_nil q)
      · exact detect_value_chars hR hd e2 he2 c (hv2 ▸ hc)
    constructor
    · show ((buildMapping (buildUnique cfg O ents' [] st).1).filter
        (fun q => q.2 == pr.1)).length = 1
      rw [hp1, buildMapping_eq (fresh_placeholders_nodup hF), List.filter_map,
        List.length_map]
      have hvals : (pairs.map Prod.fst).Nodup := by
        have := buildUnique_keys_nodup cfg O ents' [] st (by simp)
        rw [hp1] at this
        exact this
      exact filter_key_len pairs pr.1 pr.2 hvals hpr
    · show countOcc (applyReplacements text (buildUnique cfg O ents' [] st).1) pr.2 =
        countOcc text pr.1
      rw [hp1]
      exact dedup_count_core pairs text hF.1 hF.2 h3 hV pr hpr

/-- Witness for C5 at a concrete run: the value `ab` occurs twice, its
placeholder occurs twice in the anonymized text, and the mapping has one
entry for it. -/
theorem dedup_amended_witness :
    (([(("K_1".data), ("ab".data))] : List (Str × Str)).filter
      (fun q => q.2 == ("ab".data))).length = 1 ∧
    countOcc ("K_1 K_1".data) ("K_1".data) = countOcc ("ab ab".data) ("ab".data) :=
  dedup_amended R0 [] cfgShort O0 ("ab ab".data)
    (some [(EntityType.Custom ("k".data), [("ab".data)])]) ⟨0, 0⟩ ⟨1, 0⟩ ⟨1, 0⟩
    [⟨EntityType.Custom ("k".data), ("ab".data), 0, 2⟩,
     ⟨EntityType.Custom ("k".data), ("ab".data), 3, 5⟩]
    [(("ab".data), ("K_1".data))]
    { anonymized_text := ("K_1 K_1".data)
      mapping := [(("K_1".data), ("ab".data))]
      entities := [⟨EntityType.Custom ("k".data), ("ab".data), 0, 2⟩,
        ⟨EntityType.Custom ("k".data), ("ab".data), 3, 5⟩] }
    (fun et text sp h => absurd h (List.not_mem_nil sp))
    (by decide) (by decide) (by decide) (by decide) (by decide) (by decide)
    (("ab".data), ("K_1".data)) (by decide)
